import Mathlib

/-!
Verification development for the ScreenGuide AI repository.

Shallow embedding of:
* the generic history utility (`hooks/useHistory.ts`),
* the instruction step list and its block-level edit operations
  (`components/InstructionDisplay.tsx`, `App.tsx`),
* the incremental merge operation (`App.tsx`, `handleMergeInstructions`),
* the canvas image editor's geometry, hit-testing and pointer state
  machine (`components/ImageAnnotator.tsx`, second editor implementation),
* the full-generation control flow (`App.tsx`, `generateAll`),
* the interchange encoding (`utils/fileUtils.ts`, `convertFilesToExportedImages`),
* the upload queue (`components/ImageUploader.tsx`, `handleAddFiles`).

Numbers that are IEEE doubles in the source are modelled as rationals;
the transcendental primitives (`Math.cos`, `Math.sin`, `Math.atan2`,
`Math.hypot`, `Math.PI`) are abstracted as an oracle structure `TrigOps`
carrying the one identity the claims need (`cos 0 = 1`, `sin 0 = 0`).
JavaScript strings are modelled as `String` except in the base64
component, where `List Char` keeps the character-level reasoning direct.
-/

namespace SG

/-- `hooks/useHistory.ts`: the `{past, present, future}` state of `useHistory`. -/
structure History (T : Type) where
  past : List T
  present : T
  future : List T
deriving DecidableEq, Repr

/-- `useHistory.set`: the `deepEqual` guard (`JSON.stringify` equality) is
modelled as structural equality on `T`. -/
def History.set {T : Type} [DecidableEq T] (h : History T) (newState : T) : History T :=
  if newState = h.present then h
  else { past := h.past ++ [h.present], present := newState, future := [] }

/-- `useHistory.undo`: no-op when `past` is empty (`canUndo` guard). -/
def History.undo {T : Type} (h : History T) : History T :=
  match h.past.getLast? with
  | none => h
  | some previous =>
      { past := h.past.dropLast, present := previous, future := h.present :: h.future }

/-- `useHistory.redo`: no-op when `future` is empty (`canRedo` guard). -/
def History.redo {T : Type} (h : History T) : History T :=
  match h.future with
  | [] => h
  | next :: rest => { past := h.past ++ [h.present], present := next, future := rest }

/-- `useHistory.reset`: clears both stacks, new baseline. -/
def History.resetState {T : Type} (newInitialState : T) : History T :=
  { past := [], present := newInitialState, future := [] }

/-- `types.ts` `InstructionStep`: `{type: 'text'|'image', content: string}`.
For image steps `content` is a 1-based decimal index into the images array. -/
inductive Step where
  | text (content : String)
  | image (content : String)
deriving DecidableEq, Repr

def Step.isText : Step → Bool
  | .text _ => true
  | .image _ => false

def Step.isImage : Step → Bool
  | .text _ => false
  | .image _ => true

def Step.content : Step → String
  | .text c => c
  | .image c => c

/-- One entry of `instructionBlocks` in `InstructionDisplay.tsx`:
`{textStep, textStepIndex, imageSteps}`. -/
structure Block where
  textStep : Step
  textStepIndex : Nat
  imageSteps : List Step
deriving DecidableEq, Repr

/-- The `steps.forEach` loop of `instructionBlocks` (InstructionDisplay.tsx
lines 185–199): `i` is the running index, the `Option Block` is
`currentBlock`. -/
def blocksAux : List Step → Nat → Option Block → List Block
  | [], _, none => []
  | [], _, some b => [b]
  | Step.text c :: rest, i, none =>
      blocksAux rest (i + 1) (some ⟨Step.text c, i, []⟩)
  | Step.text c :: rest, i, some b =>
      b :: blocksAux rest (i + 1) (some ⟨Step.text c, i, []⟩)
  | Step.image _ :: rest, i, none =>
      blocksAux rest (i + 1) none
  | Step.image c :: rest, i, some b =>
      blocksAux rest (i + 1) (some { b with imageSteps := b.imageSteps ++ [Step.image c] })

/-- `instructionBlocks` of `InstructionDisplay.tsx`: groups the flat step
list into text-headed blocks, dropping leading image steps. -/
def instructionBlocks (steps : List Step) : List Block :=
  blocksAux steps 0 none

/-- `[block.textStep, ...block.imageSteps]`, the flat form of one block. -/
def blockSteps (b : Block) : List Step :=
  b.textStep :: b.imageSteps

/-- `blocks.flatMap(block => [block.textStep, ...block.imageSteps])`. -/
def flattenBlocks (bs : List Block) : List Step :=
  bs.flatMap blockSteps

/-- Well-formed step list: empty, or starting with a text step (the shape
every structural edit of the app produces). -/
def wfSteps : List Step → Prop
  | [] => True
  | Step.text _ :: _ => True
  | Step.image _ :: _ => False

/-- A block as produced by grouping: its text step is a `text` step and its
image steps are `image` steps. -/
def typedBlock (b : Block) : Prop :=
  b.textStep.isText = true ∧ ∀ s ∈ b.imageSteps, s.isImage = true

/-- The block invariant: re-grouping the list loses nothing and reproduces
it exactly — so each image step belongs to the block of the nearest
preceding text step, each block's image steps are the contiguous run after
its text step, and no image step leaks into another block. -/
def goodGrouping (steps : List Step) : Prop :=
  flattenBlocks (instructionBlocks steps) = steps ∧
    ∀ b ∈ instructionBlocks steps, typedBlock b

/-- JavaScript `arr.splice(n, 0, a)` as a pure function: inserts at `n`,
clamping to the end when `n ≥ arr.length`. -/
def spliceInsert {α : Type} (l : List α) (n : Nat) (a : α) : List α :=
  l.take n ++ a :: l.drop n

/-- `handleInsertStep` (InstructionDisplay.tsx lines 268–285).
`afterBlockIndex = -1` inserts at the very beginning; otherwise the empty
text step goes right after the last step of block `afterBlockIndex`.
The out-of-range `none` case is unreachable from the UI (the JS code would
dereference `undefined`); it is modelled as inserting at 0. -/
def handleInsertStep (steps : List Step) (afterBlockIndex : Int) : List Step :=
  let newTextStep := Step.text ""
  let insertAtIndex : Nat :=
    if afterBlockIndex = -1 then 0
    else
      match (instructionBlocks steps).get? afterBlockIndex.toNat with
      | some previousBlock => previousBlock.textStepIndex + previousBlock.imageSteps.length + 1
      | none => 0
  spliceInsert steps insertAtIndex newTextStep

/-- `handleDeleteStep` (App.tsx lines 371–376): removes the step at
`startIndex` together with the immediately following run of image steps. -/
def handleDeleteStep (steps : List Step) (startIndex : Nat) : List Step :=
  let endIndex := startIndex + 1 + ((steps.drop (startIndex + 1)).takeWhile Step.isImage).length
  steps.take startIndex ++ steps.drop endIndex

/-- The `instructionBlocks.forEach` accumulation of `handleMerge`
(InstructionDisplay.tsx lines 228–237); the `Bool` is `mergedBlockAdded`. -/
def mergeFold (sortedIndices : List Nat) (mergedChunk : List Step) :
    List Block → List Step × Bool → List Step × Bool
  | [], acc => acc
  | b :: rest, acc =>
      if sortedIndices.contains b.textStepIndex then
        if b.textStepIndex = sortedIndices.headD 0 ∧ acc.2 = false then
          mergeFold sortedIndices mergedChunk rest (acc.1 ++ mergedChunk, true)
        else
          mergeFold sortedIndices mergedChunk rest acc
      else
        mergeFold sortedIndices mergedChunk rest (acc.1 ++ blockSteps b, acc.2)

/-- Insertion step for `sortLe`. -/
def insertLe {α : Type} (le : α → α → Bool) (a : α) : List α → List α
  | [] => [a]
  | b :: rest => if le a b then a :: b :: rest else b :: insertLe le a rest

/-- JavaScript `Array.prototype.sort(comparator)` (ascending, stable),
modelled as a stable insertion sort so that it evaluates by reduction. -/
def sortLe {α : Type} (le : α → α → Bool) : List α → List α
  | [] => []
  | a :: rest => insertLe le a (sortLe le rest)

/-- `handleMerge` (InstructionDisplay.tsx lines 218–240). -/
def handleMerge (steps : List Step) (selectedIndices : List Nat) : List Step :=
  if selectedIndices.length < 2 then steps
  else
    let sortedIndices := sortLe (fun a b => a ≤ b) selectedIndices
    let blocks := instructionBlocks steps
    let blocksToMerge := blocks.filter (fun b => sortedIndices.contains b.textStepIndex)
    let mergedText := String.intercalate " " (blocksToMerge.map (fun b => b.textStep.content))
    let mergedImageSteps := blocksToMerge.flatMap (fun b => b.imageSteps)
    let newMergedTextStep := Step.text mergedText
    (mergeFold sortedIndices (newMergedTextStep :: mergedImageSteps) blocks ([], false)).1

/-- `handleDrop` (InstructionDisplay.tsx lines 254–261): moves one whole
block and flattens back. A `draggedIndex` out of range is unreachable from
the UI (JS would splice out `undefined`); modelled as a no-op. -/
def handleDrop (steps : List Step) (draggedIndex dragOverIndex : Nat) : List Step :=
  if draggedIndex = dragOverIndex then steps
  else
    match (instructionBlocks steps).get? draggedIndex with
    | none => steps
    | some draggedBlock =>
        let newBlocks :=
          ((instructionBlocks steps).eraseIdx draggedIndex).insertIdx dragOverIndex draggedBlock
        flattenBlocks newBlocks

/-- `parseInt(s, 10)` on a decimal-numeral string (the only contents the
app produces for image steps), `none` otherwise. -/
def parseDec (s : String) : Option Nat :=
  match s.data with
  | [] => none
  | l =>
      if l.all (fun c => c.isDigit) then
        some (l.foldl (fun acc c => acc * 10 + (c.toNat - 48)) 0)
      else none

/-- `parseInt(content, 10) - 1` for an image step's 1-based content. A
non-numeral gives `NaN` in JS; modelled as the same `-1` sentinel the scan
uses for "no image seen yet", which agrees with the JS behaviour on every
output the function produces for indices `≥ 0`. -/
def parseIdx (s : String) : Int :=
  match parseDec s with
  | some n => (n : Int) - 1
  | none => -1

/-- JS `Map.set` on an association list: replaces any binding of `k`. -/
def mapSet (m : List (Int × List Step)) (k : Int) (v : List Step) : List (Int × List Step) :=
  m.filter (fun p => p.1 ≠ k) ++ [(k, v)]

/-- The `instructionSteps.forEach` scan of `handleMergeInstructions`
(part_000 lines 497–508), including the final flush: `cur` is
`currentBlock`, `curIdx` is `currentImageIndex`, `m` is `existingBlocks`
(keyed by the block's last image index). -/
def collectGo : List Step → List Step → Int → List (Int × List Step) → List (Int × List Step)
  | [], cur, curIdx, m =>
      if 0 < cur.length ∧ curIdx ≠ -1 then mapSet m curIdx cur else m
  | Step.text c :: rest, cur, curIdx, m =>
      if 0 < cur.length then
        collectGo rest [Step.text c] (-1) (if curIdx ≠ -1 then mapSet m curIdx cur else m)
      else
        collectGo rest (cur ++ [Step.text c]) curIdx m
  | Step.image c :: rest, cur, curIdx, m =>
      collectGo rest (cur ++ [Step.image c]) (parseIdx c) m

/-- `result.steps.map(step => step.type === 'image' ? {...step, content:
String(index + 1)} : step)`: the generated block's placeholder image steps
get the real 1-based index. -/
def processedSteps (index : Nat) (steps : List Step) : List Step :=
  steps.map (fun s => match s with
    | Step.image _ => Step.image (toString (index + 1))
    | Step.text c => Step.text c)

/-- `existingImageIndices`: the 0-based indices referenced by image steps. -/
def existingIdx (steps : List Step) : List Int :=
  (steps.filter Step.isImage).map (fun s => parseIdx s.content)

/-- `handleMergeInstructions` (part_000 lines 480–543). The per-image call
to the external generation collaborator (together with the
previous/next-text context it is handed) is the oracle `gen`; `numImages`
is `images.length`. The early returns (missing API key, no new images)
leave the step list unchanged. -/
def mergeInstructions (steps : List Step) (numImages : Nat) (gen : Nat → List Step) :
    List Step :=
  let existing := existingIdx steps
  let newIdxs := (List.range numImages).filter
    (fun i : Nat => ¬ existing.contains ((i : Nat) : Int))
  if newIdxs.length = 0 then steps
  else
    let blocks := collectGo steps [] (-1) []
    (List.range numImages).flatMap (fun i : Nat =>
      (List.lookup ((i : Nat) : Int) blocks).getD
        (if newIdxs.contains i then processedSteps i (gen i) else []))

/-- The `currentImageIndex` a block contributes to the scan: the parsed
index of its last image step, `-1` when it has none. -/
def blockLastIdx (b : Block) : Int :=
  b.imageSteps.foldl (fun acc s => match s with
    | Step.image c => parseIdx c
    | Step.text _ => acc) (-1)

/-- One flush of the scan, at block granularity. -/
def flushBlock (m : List (Int × List Step)) (b : Block) : List (Int × List Step) :=
  if blockLastIdx b ≠ -1 then mapSet m (blockLastIdx b) (blockSteps b) else m

/-- The map keys the blocks of a list contribute. -/
def blockKeys (bs : List Block) : List Int :=
  bs.filterMap (fun b => if blockLastIdx b = -1 then none else some (blockLastIdx b))

/-!
The canvas image editor (`components/ImageAnnotator.tsx`, the second
editor implementation in the file, lines 886–1584). Coordinates are
rationals; the float trig primitives are the abstract `TrigOps` oracle.
-/

/-- Stand-ins for `Math.cos`, `Math.sin`, `Math.atan2`, `Math.hypot` and
`Math.PI / 2`, with the one identity the claims below rely on. -/
structure TrigOps where
  cosF : Rat → Rat
  sinF : Rat → Rat
  atan2F : Rat → Rat → Rat
  hypotF : Rat → Rat → Rat
  piHalf : Rat
  cos_zero : cosF 0 = 1
  sin_zero : sinF 0 = 0

/-- `Point {x, y}` in canvas space. -/
structure Pt where
  x : Rat
  y : Rat
deriving DecidableEq, Repr

inductive AnnType where
  | rectangle
  | arrow
  | circle
  | text
  | pencil
  | blur
  | number
deriving DecidableEq, Repr

/-- The duck-typed `Annotation` object: kind-specific fields are optional.
The JS field `end` is `endPt` here (`end` is a Lean keyword). -/
structure Ann where
  id : Nat
  type : AnnType
  color : String
  lineWidth : Option Rat := none
  fontSize : Option Rat := none
  blurStrength : Option Rat := none
  size : Option Rat := none
  start : Pt
  endPt : Pt
  rotation : Rat
  text : Option String := none
  points : Option (List Pt) := none
deriving DecidableEq, Repr

/-- `rotatePoint(point, center, angle)`. -/
def rotatePoint (T : TrigOps) (point center : Pt) (angle : Rat) : Pt :=
  let cos := T.cosF angle
  let sin := T.sinF angle
  { x := (point.x - center.x) * cos - (point.y - center.y) * sin + center.x,
    y := (point.x - center.x) * sin + (point.y - center.y) * cos + center.y }

/-- JS `annotation.size || 16` (`0` is falsy). -/
def sizeOrDefault (a : Ann) : Rat :=
  match a.size with
  | some s => if s = 0 then 16 else s
  | none => 16

/-- JS `annotation.lineWidth || 4` (`0` is falsy). -/
def lineWidthOrDefault (a : Ann) : Rat :=
  match a.lineWidth with
  | some w => if w = 0 then 4 else w
  | none => 4

structure Bounds where
  minX : Rat
  minY : Rat
  maxX : Rat
  maxY : Rat
  width : Rat
  height : Rat
deriving DecidableEq, Repr

/-- `Math.min(...xs)` over a nonempty spread. -/
def listMin (x : Rat) (xs : List Rat) : Rat :=
  xs.foldl min x

/-- `Math.max(...xs)` over a nonempty spread. -/
def listMax (x : Rat) (xs : List Rat) : Rat :=
  xs.foldl max x

/-- `getAnnotationBounds` (second editor, lines 947–961). -/
def getAnnBounds (a : Ann) : Bounds :=
  if a.type = AnnType.number then
    let radius := sizeOrDefault a
    { minX := a.start.x - radius, minY := a.start.y - radius,
      maxX := a.start.x + radius, maxY := a.start.y + radius,
      width := radius * 2, height := radius * 2 }
  else
    match a.type, a.points with
    | AnnType.pencil, some (p :: ps) =>
        let minX := listMin p.x (ps.map Pt.x)
        let maxX := listMax p.x (ps.map Pt.x)
        let minY := listMin p.y (ps.map Pt.y)
        let maxY := listMax p.y (ps.map Pt.y)
        { minX := minX, minY := minY, maxX := maxX, maxY := maxY,
          width := maxX - minX, height := maxY - minY }
    | _, _ =>
        let minX := min a.start.x a.endPt.x
        let minY := min a.start.y a.endPt.y
        let maxX := max a.start.x a.endPt.x
        let maxY := max a.start.y a.endPt.y
        { minX := minX, minY := minY, maxX := maxX, maxY := maxY,
          width := maxX - minX, height := maxY - minY }

/-- `getAnnotationCenter` (lines 963–967): a `number` badge is anchored at
its center. -/
def getAnnCenter (a : Ann) : Pt :=
  if a.type = AnnType.number then a.start
  else
    let bounds := getAnnBounds a
    { x := bounds.minX + bounds.width / 2, y := bounds.minY + bounds.height / 2 }

inductive HandleKey where
  | n
  | s
  | e
  | w
  | ne
  | nw
  | se
  | sw
  | rotate
deriving DecidableEq, Repr

structure Handle where
  key : HandleKey
  position : Pt
  cursor : String
deriving DecidableEq, Repr

/-- The handle's unrotated position on the bounds. -/
def handleBasePos (b : Bounds) : HandleKey → Pt
  | .nw => ⟨b.minX, b.minY⟩
  | .n => ⟨b.minX + b.width / 2, b.minY⟩
  | .ne => ⟨b.minX + b.width, b.minY⟩
  | .w => ⟨b.minX, b.minY + b.height / 2⟩
  | .e => ⟨b.minX + b.width, b.minY + b.height / 2⟩
  | .sw => ⟨b.minX, b.minY + b.height⟩
  | .s => ⟨b.minX + b.width / 2, b.minY + b.height⟩
  | .se => ⟨b.minX + b.width, b.minY + b.height⟩
  | .rotate => ⟨b.minX + b.width / 2, b.minY - 20⟩

def handleCursor : HandleKey → String
  | .nw => "nwse-resize"
  | .n => "ns-resize"
  | .ne => "nesw-resize"
  | .w => "ew-resize"
  | .e => "ew-resize"
  | .sw => "nesw-resize"
  | .s => "ns-resize"
  | .se => "nwse-resize"
  | .rotate => "grab"

/-- `Object.keys(positions)` insertion order in the source literal. -/
def handleKeysOrder : List HandleKey :=
  [.nw, .n, .ne, .w, .e, .sw, .s, .se, .rotate]

/-- `getAnnotationHandles` (lines 969–985). -/
def getAnnHandles (T : TrigOps) (a : Ann) : List Handle :=
  let bounds := getAnnBounds a
  let center := getAnnCenter a
  handleKeysOrder.map (fun key =>
    { key := key,
      position := rotatePoint T (handleBasePos bounds key) center a.rotation,
      cursor := handleCursor key })

/-- The expanded-bounds test of `isPointInsideAnnotation`'s final branch
(lines 1001–1003): containment in bounds grown by `lineWidth + 4`. -/
def annBoundsHit (a : Ann) (localPoint : Pt) : Bool :=
  let bounds := getAnnBounds a
  let buffer := lineWidthOrDefault a + 4
  decide (localPoint.x ≥ bounds.minX - buffer) &&
    decide (localPoint.x ≤ bounds.maxX + buffer) &&
    decide (localPoint.y ≥ bounds.minY - buffer) &&
    decide (localPoint.y ≤ bounds.maxY + buffer)

/-- `isPointInsideAnnotation` (lines 987–1004). `measureText fs line`
models `ctx.measureText(line).width` under `ctx.font = fs px sans-serif`. -/
def isPointInsideAnn (T : TrigOps) (measureText : Rat → String → Rat)
    (point : Pt) (a : Ann) : Bool :=
  let center := getAnnCenter a
  let localPoint := rotatePoint T point center (-a.rotation)
  if a.type = AnnType.number then
    let radius := sizeOrDefault a
    decide (T.hypotF (localPoint.x - center.x) (localPoint.y - center.y) ≤ radius)
  else
    match a.type, a.text, a.fontSize with
    | AnnType.text, some t, some fs =>
        if t ≠ "" ∧ fs ≠ 0 then
          let lineHeight := fs * (6 / 5)
          let lines := t.splitOn "\n"
          let textHeight := (lines.length : Rat) * lineHeight
          let textWidth :=
            match lines.map (measureText fs) with
            | [] => 0
            | x :: xs => listMax x xs
          decide (localPoint.x ≥ a.start.x) &&
            decide (localPoint.x ≤ a.start.x + textWidth) &&
            decide (localPoint.y ≥ a.start.y) &&
            decide (localPoint.y ≤ a.start.y + textHeight)
        else annBoundsHit a localPoint
    | _, _, _ => annBoundsHit a localPoint

inductive Tool where
  | select
  | rectangle
  | arrow
  | circle
  | text
  | pencil
  | eraser
  | crop
  | blur
  | number
deriving DecidableEq, Repr

inductive Action where
  | none
  | drawing
  | moving
  | resizing
  | rotating
  | cropping
deriving DecidableEq, Repr

structure CropRect where
  x : Rat
  y : Rat
  width : Rat
  height : Rat
deriving DecidableEq, Repr

/-- JS `key.includes('e')` on a handle key (note `"rotate"` contains `e`). -/
def keyHasE : HandleKey → Bool
  | .e | .ne | .se | .rotate => true
  | _ => false

/-- JS `key.includes('w')`. -/
def keyHasW : HandleKey → Bool
  | .w | .nw | .sw => true
  | _ => false

/-- JS `key.includes('s')`. -/
def keyHasS : HandleKey → Bool
  | .s | .sw | .se => true
  | _ => false

/-- JS `key.includes('n')`. -/
def keyHasN : HandleKey → Bool
  | .n | .ne | .nw => true
  | _ => false

/-- `oppositeHandleKeyMap` (line 1341); `rotate` has no entry. -/
def oppositeHandleKey : HandleKey → Option HandleKey
  | .nw => some .se
  | .ne => some .sw
  | .sw => some .ne
  | .se => some .nw
  | .n => some .s
  | .s => some .n
  | .w => some .e
  | .e => some .w
  | .rotate => none

/-- The editor state the pointer handlers read and write: tool, the
committed list under its undo history, the gesture bookkeeping
(`currentAction`, `activeHandleKey`, `actionState.current`), selection,
the in-progress draft (`drawingAnnotation`), the crop rectangle and the
cursor. -/
structure AnnotatorState where
  tool : Tool
  history : History (List Ann)
  currentAction : Action
  activeHandleKey : Option HandleKey
  selectedAnnId : Option Nat
  drawingAnn : Option Ann
  actionAnn : Option Ann
  actionMousePos : Pt
  actionCropRect : Option CropRect
  cropRect : Option CropRect
  canvasCursor : String
deriving DecidableEq, Repr

/-- `handleMouseMove` (lines 1291–1377). The JS non-null assertions
(`ann!`, `startCrop!`, `find(...)!`) hold on every state the editor
reaches; the unreachable null cases are modelled as leaving the state
unchanged. -/
def mouseMove (T : TrigOps) (measureText : Rat → String → Rat)
    (s : AnnotatorState) (mousePos : Pt) : AnnotatorState :=
  if s.tool = Tool.crop ∧ s.cropRect.isSome then
    match s.cropRect with
    | none => s
    | some cr =>
        if s.currentAction = Action.cropping then
          let newCR := { cr with width := mousePos.x - cr.x, height := mousePos.y - cr.y }
          { s with cropRect := some newCR }
        else if s.currentAction = Action.moving then
          match s.actionCropRect with
          | none => s
          | some startCrop =>
              let dx := mousePos.x - s.actionMousePos.x
              let dy := mousePos.y - s.actionMousePos.y
              let newCR := { startCrop with x := startCrop.x + dx, y := startCrop.y + dy }
              { s with cropRect := some newCR }
        else if s.currentAction = Action.resizing then
          match s.activeHandleKey with
          | none => s
          | some hk =>
              let w1 := if keyHasE hk then mousePos.x - cr.x else cr.width
              let (x2, w2) :=
                if keyHasW hk then (mousePos.x, w1 + cr.x - mousePos.x) else (cr.x, w1)
              let h1 := if keyHasS hk then mousePos.y - cr.y else cr.height
              let (y2, h2) :=
                if keyHasN hk then (mousePos.y, h1 + cr.y - mousePos.y) else (cr.y, h1)
              { s with cropRect := some ⟨x2, y2, w2, h2⟩ }
        else s
  else if s.currentAction = Action.none ∨ s.drawingAnn = none then
    let cursor0 := if s.tool = Tool.select then "grab" else "default"
    let cursor1 :=
      if s.tool ∈ [Tool.rectangle, Tool.circle, Tool.arrow, Tool.pencil, Tool.blur,
          Tool.number] then
        "crosshair"
      else cursor0
    let cursor2 := if s.tool = Tool.text then "text" else cursor1
    let cursor3 := if s.tool = Tool.eraser then "crosshair" else cursor2
    let selectedAnn : Option Ann :=
      match s.selectedAnnId with
      | none => Option.none
      | some sid => s.history.present.find? (fun a => a.id = sid)
    let finalCursor :=
      match selectedAnn with
      | none => cursor3
      | some selAnn =>
          match (getAnnHandles T selAnn).find? (fun h =>
              T.hypotF (h.position.x - mousePos.x) (h.position.y - mousePos.y) < 8 / 2 + 2) with
          | some hoveredHandle => hoveredHandle.cursor
          | none =>
              if isPointInsideAnn T measureText mousePos selAnn then "move" else cursor3
    { s with canvasCursor := finalCursor }
  else
    match s.drawingAnn with
    | none => s
    | some draft =>
        if s.currentAction = Action.moving then
          match s.actionAnn with
          | none => s
          | some ann =>
              let dx := mousePos.x - s.actionMousePos.x
              let dy := mousePos.y - s.actionMousePos.y
              let moved : Ann := { ann with
                start := ⟨ann.start.x + dx, ann.start.y + dy⟩,
                endPt := ⟨ann.endPt.x + dx, ann.endPt.y + dy⟩,
                points := ann.points.map (fun ps =>
                  ps.map (fun p => ⟨p.x + dx, p.y + dy⟩)) }
              { s with drawingAnn := some moved }
        else if s.currentAction = Action.rotating then
          match s.actionAnn with
          | none => s
          | some ann =>
              let center := getAnnCenter ann
              let angle :=
                T.atan2F (mousePos.y - center.y) (mousePos.x - center.x) + T.piHalf
              { s with drawingAnn := some ({ draft with rotation := angle }) }
        else if s.currentAction = Action.resizing ∧ s.activeHandleKey.isSome then
          match s.activeHandleKey, s.actionAnn with
          | some hk, some ann =>
              if ann.type = AnnType.number then
                let center := getAnnCenter ann
                let newRadius :=
                  T.hypotF (mousePos.x - center.x) (mousePos.y - center.y)
                { s with drawingAnn := some ({ draft with size := some (max 8 newRadius) }) }
              else
                match oppositeHandleKey hk with
                | none => s
                | some ohk =>
                    match (getAnnHandles T ann).find? (fun h => h.key = ohk) with
                    | none => s
                    | some oppositeHandle =>
                        let pivot := oppositeHandle.position
                        let rotatedMousePos := rotatePoint T mousePos pivot (-ann.rotation)
                        let newStartUnrotated : Pt :=
                          ⟨min pivot.x rotatedMousePos.x, min pivot.y rotatedMousePos.y⟩
                        let newEndUnrotated : Pt :=
                          ⟨max pivot.x rotatedMousePos.x, max pivot.y rotatedMousePos.y⟩
                        let newCenterUnrotated : Pt :=
                          ⟨(newStartUnrotated.x + newEndUnrotated.x) / 2,
                           (newStartUnrotated.y + newEndUnrotated.y) / 2⟩
                        let originalBounds := getAnnBounds ann
                        let newWidth := newEndUnrotated.x - newStartUnrotated.x
                        let newHeight := newEndUnrotated.y - newStartUnrotated.y
                        let rcd : Pt :=
                          ⟨newCenterUnrotated.x - pivot.x, newCenterUnrotated.y - pivot.y⟩
                        let finalCenter : Pt :=
                          ⟨pivot.x +
                              (rcd.x * T.cosF ann.rotation - rcd.y * T.sinF ann.rotation),
                           pivot.y +
                              (rcd.x * T.sinF ann.rotation + rcd.y * T.cosF ann.rotation)⟩
                        let newStart : Pt :=
                          ⟨finalCenter.x - newWidth / 2, finalCenter.y - newHeight / 2⟩
                        let newEnd : Pt :=
                          ⟨finalCenter.x + newWidth / 2, finalCenter.y + newHeight / 2⟩
                        let updatedPoints :=
                          if draft.type = AnnType.pencil ∧ draft.points.isSome ∧
                              ann.points.isSome ∧ 0 < originalBounds.width ∧
                              0 < originalBounds.height then
                            match ann.points with
                            | some ps =>
                                let scaleX := newWidth / originalBounds.width
                                let scaleY := newHeight / originalBounds.height
                                some (ps.map (fun p =>
                                  ⟨newStart.x + (p.x - originalBounds.minX) * scaleX,
                                   newStart.y + (p.y - originalBounds.minY) * scaleY⟩))
                            | none => draft.points
                          else draft.points
                        let resized : Ann := { draft with
                          start := newStart, endPt := newEnd, points := updatedPoints }
                        { s with drawingAnn := some resized }
          | _, _ => s
        else if s.currentAction = Action.drawing then
          let updated := { draft with endPt := mousePos }
          let updated :=
            if s.tool = Tool.pencil then
              { updated with points := some ((draft.points.getD []) ++ [mousePos]) }
            else updated
          { s with drawingAnn := some updated }
        else s

/-- `handleMouseUp` (lines 1395–1420): commit point of a gesture. The
committed list goes through `History.set` (equality-gated). -/
def mouseUp (s : AnnotatorState) : AnnotatorState :=
  if s.tool = Tool.crop then
    let s1 :=
      if s.currentAction = Action.cropping then
        match s.cropRect with
        | some cr =>
            let newCropRect : CropRect :=
              { x := if cr.width < 0 then cr.x + cr.width else cr.x,
                y := if cr.height < 0 then cr.y + cr.height else cr.y,
                width := |cr.width|,
                height := |cr.height| }
            if newCropRect.width < 10 ∨ newCropRect.height < 10 then
              { s with cropRect := none }
            else { s with cropRect := some newCropRect }
        | none => s
      else s
    { s1 with currentAction := Action.none, activeHandleKey := none }
  else
    match s.drawingAnn with
    | some draft =>
        let s1 :=
          if s.currentAction = Action.drawing then
            let newHist := s.history.set (s.history.present ++ [draft])
            let newTool := if s.tool ≠ Tool.pencil then Tool.select else s.tool
            { s with history := newHist, tool := newTool, selectedAnnId := some draft.id }
          else if s.currentAction = Action.moving ∨ s.currentAction = Action.resizing ∨
              s.currentAction = Action.rotating then
            let replaced := s.history.present.map (fun a => if a.id = draft.id then draft else a)
            { s with history := s.history.set replaced }
          else s
        { s1 with drawingAnn := none, currentAction := Action.none, activeHandleKey := none }
    | none => { s with currentAction := Action.none, activeHandleKey := none }

/-- JS truthiness of an optional string (`ann.text`). -/
def textTruthy : Option String → Bool
  | some t => t ≠ ""
  | none => false

/-- `parseInt(ann.text!, 10)` for a badge label (always a decimal numeral
for app-created badges; the `NaN` case is modelled as `0`). -/
def parseLabel (s : String) : Int :=
  match parseDec s with
  | some n => (n : Int)
  | none => 0

/-- `Math.max(...xs)` over a nonempty spread of parsed labels. -/
def listMaxInt (x : Int) (xs : List Int) : Int :=
  xs.foldl max x

/-- The next badge label (lines 1247–1248): `max(existing) + 1`, or `1`
when no `number` annotation with a truthy label exists. -/
def nextNumber (history : List Ann) : Int :=
  let existingNumbers :=
    (history.filter (fun a => a.type = AnnType.number ∧ textTruthy a.text)).map
      (fun a => parseLabel (a.text.getD ""))
  match existingNumbers with
  | [] => 1
  | x :: xs => listMaxInt x xs + 1

/-- The `newAnnotation` object literal of the `tool === 'number'` branch
(lines 1249–1252). `newId` models `Date.now()`. -/
def mkNumberAnn (history : List Ann) (mousePos : Pt) (newId : Nat)
    (color : String) (numberSize : Rat) : Ann :=
  { id := newId, type := AnnType.number, color := color, rotation := 0,
    text := some (toString (nextNumber history)), size := some numberSize,
    start := mousePos,
    endPt := ⟨mousePos.x + numberSize, mousePos.y + numberSize⟩ }

/-- `handleMouseDown`'s `tool === 'number'` branch (lines 1246–1254):
builds the badge and appends it to the committed list. -/
def numberMouseDown (history : List Ann) (mousePos : Pt) (newId : Nat)
    (color : String) (numberSize : Rat) : List Ann :=
  history ++ [mkNumberAnn history mousePos newId color numberSize]

/-- `handleDeleteSelected` (line 1196): removes the selected annotation. -/
def handleDeleteSelected (history : List Ann) (selectedId : Nat) : List Ann :=
  history.filter (fun a => a.id ≠ selectedId)

/-- A number badge with an explicit label: the shape `mkNumberAnn`
produces once the next label is computed. -/
def badgeLit (idN : Nat) (label : String) (c : String) (sz : Rat) (p : Pt) : Ann :=
  { id := idN, type := AnnType.number, color := c, rotation := 0,
    text := some label, size := some sz, start := p,
    endPt := ⟨p.x + sz, p.y + sz⟩ }

/-- A concrete trig oracle (valid at angle `0`), used to instantiate the
editor theorems on concrete states. -/
def trivialTrig : TrigOps :=
  { cosF := fun _ => 1, sinF := fun _ => 0, atan2F := fun _ _ => 0,
    hypotF := fun _ _ => 0, piHalf := 0, cos_zero := rfl, sin_zero := rfl }

/-- A committed rectangle annotation for concrete editor states. -/
def sampleAnn : Ann :=
  { id := 5, type := AnnType.rectangle, color := "#ef4444", lineWidth := some 4,
    start := ⟨0, 0⟩, endPt := ⟨10, 10⟩, rotation := 0 }

/-- The draft produced by dragging `sampleAnn` one unit right and down. -/
def sampleDraft : Ann :=
  { sampleAnn with start := ⟨1, 1⟩, endPt := ⟨11, 11⟩ }

/-- An editor state in the middle of a `moving` gesture on `sampleAnn`. -/
def sampleState : AnnotatorState :=
  { tool := Tool.select, history := ⟨[], [sampleAnn], []⟩,
    currentAction := Action.moving, activeHandleKey := none,
    selectedAnnId := some 5, drawingAnn := some sampleDraft,
    actionAnn := some sampleAnn, actionMousePos := ⟨0, 0⟩,
    actionCropRect := none, cropRect := none, canvasCursor := "default" }

/-- `App.tsx` document state: `{ title, steps }`, the value managed by the
`useHistory` hook (`documentState`). -/
structure DocumentState where
  title : String
  steps : List Step
deriving DecidableEq, Repr

/-- The slice of `App.tsx` state that `generateAll` (part_000 lines 437–461)
reads and writes: the document history hook, the error banner, the busy flag,
the settings modal, whether the selected model has an API key, and the number
of uploaded images. -/
structure AppState where
  docHistory : History DocumentState
  error : Option String
  isLoading : Bool
  isSettingsOpen : Bool
  hasApiKey : Bool
  numImages : Nat
deriving DecidableEq, Repr

/-- `generateAll` (lines 437–461). `gen` stands for the awaited
`generateInstructions` call: `Except.ok doc` when the promise resolves with a
document, `Except.error msg` when it rejects with message `msg` (the `catch`
arm's `errorMessage`). The two guards return early; otherwise
`setIsLoading(true); setError(null)` runs, then the `try`/`catch` ladder, and
the `finally` clears `isLoading` on both paths. -/
def generateAll (s : AppState) (gen : Except String DocumentState)
    (keyMsg noImgMsg : String) : AppState :=
  if s.hasApiKey = false then
    { s with error := some keyMsg, isSettingsOpen := true }
  else if s.numImages = 0 then
    { s with error := some noImgMsg }
  else
    match gen with
    | Except.ok doc =>
        { s with isLoading := false, error := none,
                 docHistory := History.resetState doc }
    | Except.error msg =>
        { s with isLoading := false, error := some msg }

/-- The base64 alphabet used by the `btoa`/`atob` platform primitives. -/
def b64Table : List Char :=
  "ABCDEFGHIJKLMNOPQRSTUVWXYZabcdefghijklmnopqrstuvwxyz0123456789+/".data

/-- The character encoding a 6-bit group. -/
def encChar (v : Nat) : Char := b64Table.getD v 'A'

/-- The 6-bit value of a base64 character (`atob`'s inverse table). -/
def decChar (c : Char) : Nat := b64Table.indexOf c

/-- The base64 payload `FileReader.readAsDataURL` produces for the file's
bytes: standard base64, three bytes per four characters, `=`-padded for a
trailing group of one or two bytes. -/
def encodeB64 : List Nat → List Char
  | [] => []
  | [b0] =>
      [encChar (b0 / 4), encChar (b0 % 4 * 16), '=', '=']
  | [b0, b1] =>
      [encChar (b0 / 4), encChar (b0 % 4 * 16 + b1 / 16),
       encChar (b1 % 16 * 4), '=']
  | b0 :: b1 :: b2 :: rest =>
      encChar (b0 / 4) :: encChar (b0 % 4 * 16 + b1 / 16) ::
      encChar (b1 % 16 * 4 + b2 / 64) :: encChar (b2 % 64) ::
      encodeB64 rest

/-- `atob` composed with the per-index `charCodeAt` loop of `base64ToFile`:
the decoded binary string read back as its byte values, four characters per
three bytes, honouring `=` padding. -/
def decodeB64 : List Char → List Nat
  | c0 :: c1 :: c2 :: c3 :: rest =>
      if c2 = '=' then [decChar c0 * 4 + decChar c1 / 16]
      else if c3 = '=' then
        [decChar c0 * 4 + decChar c1 / 16,
         decChar c1 % 16 * 16 + decChar c2 / 4]
      else
        (decChar c0 * 4 + decChar c1 / 16) ::
        (decChar c1 % 16 * 16 + decChar c2 / 4) ::
        (decChar c2 % 4 * 64 + decChar c3) :: decodeB64 rest
  | _ => []

/-- JS `dataUrl.split(',')` over the data URL's characters. -/
def splitOnComma : List Char → List (List Char)
  | [] => [[]]
  | c :: cs =>
      if c = ',' then [] :: splitOnComma cs
      else
        match splitOnComma cs with
        | [] => [[c]]
        | g :: gs => (c :: g) :: gs

/-- A `File` as the export/import path observes it: name, MIME type,
timestamp, byte content. The type is kept as characters because it is
embedded verbatim in the data URL. -/
structure FileM where
  name : String
  type : List Char
  lastModified : Nat
  bytes : List Nat
deriving DecidableEq, Repr

/-- One entry of `convertFilesToExportedImages` (part_000 lines 21–31):
`{name, type, lastModified, data: reader.result}`. -/
structure ExportedImageM where
  name : String
  type : List Char
  lastModified : Nat
  data : List Char
deriving DecidableEq, Repr

/-- `convertFilesToExportedImages`, per file: `readAsDataURL` yields
`data:<mime>;base64,<base64 of the bytes>` and the metadata is copied. -/
def exportImage (f : FileM) : ExportedImageM :=
  { name := f.name, type := f.type, lastModified := f.lastModified,
    data := "data:".data ++ f.type ++ ";base64,".data ++ encodeB64 f.bytes }

/-- `base64ToFile` (fileUtils.ts lines 33–52): splits the data URL on
commas, decodes `arr[1]` (when a prefix is present, else `arr[0]`) with
`atob`, copies the decoded string's char codes into `u8arr` (the reversed
while-loop fills every index, so the bytes are exactly the char codes in
order), and builds the `File` from the given name, MIME type and
timestamp. -/
def base64ToFile (dataUrl : List Char) (filename : String)
    (mimeType : List Char) (lastModified : Nat) : FileM :=
  let arr := splitOnComma dataUrl
  let bstr := decodeB64 (if arr.length > 1 then arr.getD 1 [] else arr.getD 0 [])
  { name := filename, type := mimeType, lastModified := lastModified,
    bytes := bstr }

/-- A `File` as `handleAddFiles` (ImageUploader.tsx lines 40–59) observes
it: name, MIME type, byte size, modification timestamp. -/
structure UploadFile where
  name : String
  type : String
  size : Nat
  lastModified : Nat
deriving DecidableEq, Repr

/-- `file.type.startsWith('image/')` (line 41). -/
def UploadFile.isImage (f : UploadFile) : Bool := f.type.startsWith "image/"

/-- The de-duplication predicate (lines 52–54):
`f.name === file.name && f.size === file.size &&
f.lastModified === file.lastModified`. -/
def tripleEq (a b : UploadFile) : Bool :=
  decide (a.name = b.name) && decide (a.size = b.size) &&
    decide (a.lastModified = b.lastModified)

/-- `combined.filter((file, index, self) => index === self.findIndex(f =>
...))` (lines 51–55): keeps an element exactly when its index is the first
index carrying its (name, size, lastModified) triple. -/
def dedupByTriple (combined : List UploadFile) : List UploadFile :=
  (combined.enum.filter
    (fun p => decide (combined.findIdx (fun f => tripleEq f p.2) = p.1))).map
    (fun p => p.2)

/-- `handleAddFiles` (lines 40–59): keeps only image files, early-returns
(images unchanged) when none remain, sorts the new batch ascending by
`lastModified` (stable JS `Array.sort`), appends it after the existing
images, and de-duplicates keeping first occurrences. -/
def handleAddFiles (images newFiles : List UploadFile) : List UploadFile :=
  let imageFiles := newFiles.filter UploadFile.isImage
  if imageFiles.length = 0 then images
  else
    let sorted :=
      sortLe (fun a b => decide (a.lastModified ≤ b.lastModified)) imageFiles
    dedupByTriple (images ++ sorted)

/-- Concrete files for witnesses. -/
def fileA : UploadFile :=
  { name := "a.png", type := "image/png", size := 10, lastModified := 5 }

def fileB : UploadFile :=
  { name := "b.png", type := "image/png", size := 20, lastModified := 9 }

def fileC : UploadFile :=
  { name := "c.txt", type := "text/plain", size := 3, lastModified := 1 }

/-- A concrete image file for witnesses (PNG magic prefix). -/
def sampleFile : FileM :=
  { name := "shot.png", type := "image/png".data,
    lastModified := 1700000000000, bytes := [137, 80, 78, 71] }

/-- A concrete app state (key set, two images, mid-load) for witnesses. -/
def sampleApp : AppState :=
  { docHistory := ⟨[⟨"old", []⟩], ⟨"cur", [Step.text "A"]⟩, []⟩,
    error := none, isLoading := true, isSettingsOpen := false,
    hasApiKey := true, numImages := 2 }

-- THEOREMS

theorem flattenBlocks_cons (b : Block) (bs : List Block) :
    flattenBlocks (b :: bs) = blockSteps b ++ flattenBlocks bs := by
  simp [flattenBlocks]

theorem flatten_blocksAux_some :
    ∀ (l : List Step) (i : Nat) (b : Block),
      flattenBlocks (blocksAux l i (some b)) = blockSteps b ++ l
  | [], _, b => by simp [blocksAux, flattenBlocks]
  | Step.text c :: rest, i, b => by
      rw [blocksAux, flattenBlocks_cons,
        flatten_blocksAux_some rest (i + 1) ⟨Step.text c, i, []⟩]
      simp [blockSteps]
  | Step.image c :: rest, i, b => by
      rw [blocksAux,
        flatten_blocksAux_some rest (i + 1) { b with imageSteps := b.imageSteps ++ [Step.image c] }]
      simp [blockSteps]

theorem flatten_instructionBlocks (steps : List Step) (h : wfSteps steps) :
    flattenBlocks (instructionBlocks steps) = steps := by
  match steps, h with
  | [], _ => rfl
  | Step.text c :: rest, _ =>
      rw [instructionBlocks, blocksAux, flatten_blocksAux_some]
      simp [blockSteps]

theorem typed_blocksAux :
    ∀ (l : List Step) (i : Nat) (ob : Option Block),
      (∀ b, ob = some b → typedBlock b) →
      ∀ b' ∈ blocksAux l i ob, typedBlock b'
  | [], _, none, _ => by simp [blocksAux]
  | [], _, some b, hob => by
      simpa [blocksAux] using hob b rfl
  | Step.text c :: rest, i, none, _ => by
      rw [blocksAux]
      refine typed_blocksAux rest (i + 1) (some ⟨Step.text c, i, []⟩) ?_
      intro b hb
      simp only [Option.some.injEq] at hb
      subst hb
      exact ⟨rfl, by simp⟩
  | Step.text c :: rest, i, some b, hob => by
      rw [blocksAux]
      intro b' hb'
      rcases List.mem_cons.mp hb' with h | h
      · exact h ▸ hob b rfl
      · refine typed_blocksAux rest (i + 1) (some ⟨Step.text c, i, []⟩) ?_ b' h
        intro b2 hb2
        simp only [Option.some.injEq] at hb2
        subst hb2
        exact ⟨rfl, by simp⟩
  | Step.image _ :: rest, i, none, _ => by
      rw [blocksAux]
      exact typed_blocksAux rest (i + 1) none (by rintro b h; cases h)
  | Step.image c :: rest, i, some b, hob => by
      rw [blocksAux]
      refine typed_blocksAux rest (i + 1) _ ?_
      intro b' hb'
      simp only [Option.some.injEq] at hb'
      subst hb'
      obtain ⟨ht, himg⟩ := hob b rfl
      refine ⟨ht, ?_⟩
      intro s hs
      rcases List.mem_append.mp hs with h | h
      · exact himg s h
      · simp at h
        subst h
        rfl

theorem typed_instructionBlocks (steps : List Step) :
    ∀ b ∈ instructionBlocks steps, typedBlock b :=
  typed_blocksAux steps 0 none (by rintro b h; cases h)

theorem wf_goodGrouping (steps : List Step) (h : wfSteps steps) : goodGrouping steps :=
  ⟨flatten_instructionBlocks steps h, typed_instructionBlocks steps⟩

theorem wfSteps_append (a c : List Step) (ha : wfSteps a)
    (hc : ∀ s l, c = s :: l → s.isText = true) : wfSteps (a ++ c) := by
  cases a with
  | nil =>
      cases c with
      | nil => trivial
      | cons s l =>
          have := hc s l rfl
          cases s with
          | text t => simp [wfSteps]
          | image t => simp [Step.isText] at this
  | cons s l =>
      cases s with
      | text t => simp [wfSteps]
      | image t => exact absurd ha (by simp [wfSteps])

theorem wf_flattenBlocks (bs : List Block) (h : ∀ b ∈ bs, typedBlock b) :
    wfSteps (flattenBlocks bs) := by
  cases bs with
  | nil => trivial
  | cons b rest =>
      rw [flattenBlocks_cons]
      obtain ⟨ht, _⟩ := h b (List.mem_cons_self _ _)
      cases hb : b.textStep with
      | text t => simp [blockSteps, hb, wfSteps]
      | image t => rw [hb] at ht; simp [Step.isText] at ht

theorem wf_handleInsertStep (steps : List Step) (h : wfSteps steps) (afterBlockIndex : Int) :
    wfSteps (handleInsertStep steps afterBlockIndex) := by
  rw [handleInsertStep]
  generalize (if afterBlockIndex = -1 then 0 else _ : Nat) = n
  rw [spliceInsert]
  cases n with
  | zero => simp [wfSteps]
  | succ m =>
      cases steps with
      | nil => simp [wfSteps]
      | cons s rest =>
          cases s with
          | text t => simp [wfSteps]
          | image t => exact absurd h (by simp [wfSteps])

theorem wf_dropWhile_isImage (l : List Step) : wfSteps (l.dropWhile Step.isImage) := by
  induction l with
  | nil => trivial
  | cons s rest ih =>
      cases s with
      | text t => simp [List.dropWhile, Step.isImage, wfSteps]
      | image c => simpa [List.dropWhile, Step.isImage] using ih

theorem drop_takeWhile_length {α : Type} (p : α → Bool) :
    ∀ l : List α, l.drop (l.takeWhile p).length = l.dropWhile p
  | [] => rfl
  | x :: xs => by
      by_cases h : p x
      · simp [List.takeWhile_cons, List.dropWhile_cons, h, drop_takeWhile_length p xs]
      · simp [List.takeWhile_cons, List.dropWhile_cons, h]

theorem wf_handleDeleteStep (steps : List Step) (h : wfSteps steps) (startIndex : Nat) :
    wfSteps (handleDeleteStep steps startIndex) := by
  simp only [handleDeleteStep]
  have hdrop : steps.drop (startIndex + 1 +
      ((steps.drop (startIndex + 1)).takeWhile Step.isImage).length) =
      (steps.drop (startIndex + 1)).dropWhile Step.isImage := by
    rw [← List.drop_drop _ (startIndex + 1) steps, drop_takeWhile_length]
  rw [hdrop]
  cases startIndex with
  | zero =>
      simpa using wf_dropWhile_isImage (steps.drop 1)
  | succ m =>
      cases steps with
      | nil => simp [wfSteps]
      | cons s rest =>
          cases s with
          | text t => simp [wfSteps]
          | image t => exact absurd h (by simp [wfSteps])

theorem mergeFold_wf (sorted : List Nat) (chunk : List Step)
    (hchunk : ∀ s l, chunk = s :: l → s.isText = true) :
    ∀ (bs : List Block) (acc : List Step × Bool),
      (∀ b ∈ bs, typedBlock b) → wfSteps acc.1 →
      wfSteps (mergeFold sorted chunk bs acc).1
  | [], _, _, hacc => hacc
  | b :: rest, acc, hbs, hacc => by
      rw [mergeFold]
      have hrest : ∀ b' ∈ rest, typedBlock b' := fun b' hb' => hbs b' (List.mem_cons_of_mem _ hb')
      by_cases h1 : sorted.contains b.textStepIndex = true
      · rw [if_pos h1]
        by_cases h2 : b.textStepIndex = sorted.headD 0 ∧ acc.2 = false
        · rw [if_pos h2]
          exact mergeFold_wf sorted chunk hchunk rest (acc.1 ++ chunk, true) hrest
            (wfSteps_append _ _ hacc hchunk)
        · rw [if_neg h2]
          exact mergeFold_wf sorted chunk hchunk rest acc hrest hacc
      · rw [if_neg h1]
        refine mergeFold_wf sorted chunk hchunk rest (acc.1 ++ blockSteps b, acc.2) hrest
          (wfSteps_append _ _ hacc ?_)
        intro s l hsl
        obtain ⟨ht, _⟩ := hbs b (List.mem_cons_self _ _)
        rw [blockSteps] at hsl
        cases hsl
        exact ht

theorem wf_handleMerge (steps : List Step) (h : wfSteps steps) (selected : List Nat) :
    wfSteps (handleMerge steps selected) := by
  rw [handleMerge]
  by_cases hlen : selected.length < 2
  · simpa [hlen] using h
  · simp only [hlen, if_false]
    refine mergeFold_wf _ _ ?_ _ _ (fun b hb => typed_instructionBlocks steps b hb) trivial
    intro s l hsl
    cases hsl
    rfl

theorem wf_handleDrop (steps : List Step) (h : wfSteps steps) (i j : Nat) :
    wfSteps (handleDrop steps i j) := by
  rw [handleDrop]
  by_cases hij : i = j
  · simpa [hij] using h
  · simp only [hij, if_false]
    cases hget : (instructionBlocks steps).get? i with
    | none => exact h
    | some blk =>
        refine wf_flattenBlocks _ ?_
        intro b hb
        have hblk : blk ∈ instructionBlocks steps := List.get?_mem hget
        have hsub : b = blk ∨ b ∈ (instructionBlocks steps).eraseIdx i := by
          by_cases hn : j ≤ ((instructionBlocks steps).eraseIdx i).length
          · exact (List.mem_insertIdx hn).mp hb
          · right
            rwa [List.insertIdx_of_length_lt _ blk j (by omega)] at hb
        rcases hsub with rfl | h'
        · exact typed_instructionBlocks steps b hblk
        · exact typed_instructionBlocks steps b
            (List.Sublist.mem h' (List.eraseIdx_sublist _ i))

theorem flatMapCongr {α β : Type} {l : List α} {f g : α → List β}
    (h : ∀ x ∈ l, f x = g x) : l.flatMap f = l.flatMap g :=
  List.flatMap_congr h

theorem blocksAux_index_le :
    ∀ (l : List Step) (i : Nat) (b : Block), b.textStepIndex < i →
      ∀ b' ∈ blocksAux l i (some b), b.textStepIndex ≤ b'.textStepIndex
  | [], _, b, _ => by
      intro b' hb'
      simp [blocksAux] at hb'
      subst hb'
      exact Nat.le_refl _
  | Step.text c :: rest, i, b, hlt => by
      rw [blocksAux]
      intro b' hb'
      rcases List.mem_cons.mp hb' with h | h
      · subst h; exact Nat.le_refl _
      · have := blocksAux_index_le rest (i + 1) ⟨Step.text c, i, []⟩ (Nat.lt_succ_self i) b' h
        exact Nat.le_trans (Nat.le_of_lt hlt) this
  | Step.image c :: rest, i, b, hlt => by
      rw [blocksAux]
      exact blocksAux_index_le rest (i + 1) _ (Nat.lt_succ_of_lt hlt)

theorem blocksAux_index_pairwise :
    ∀ (l : List Step) (i : Nat) (b : Block), b.textStepIndex < i →
      List.Pairwise (· < ·) ((blocksAux l i (some b)).map Block.textStepIndex)
  | [], _, _, _ => by simp [blocksAux]
  | Step.text c :: rest, i, b, hlt => by
      rw [blocksAux, List.map_cons, List.pairwise_cons]
      constructor
      · intro y hy
        simp only [List.mem_map] at hy
        obtain ⟨b', hb', rfl⟩ := hy
        have := blocksAux_index_le rest (i + 1) ⟨Step.text c, i, []⟩ (Nat.lt_succ_self i) b' hb'
        exact Nat.lt_of_lt_of_le hlt this
      · exact blocksAux_index_pairwise rest (i + 1) ⟨Step.text c, i, []⟩ (Nat.lt_succ_self i)
  | Step.image c :: rest, i, b, hlt => by
      rw [blocksAux]
      exact blocksAux_index_pairwise rest (i + 1) _ (Nat.lt_succ_of_lt hlt)

theorem instructionBlocks_index_pairwise (steps : List Step) :
    List.Pairwise (· < ·) ((instructionBlocks steps).map Block.textStepIndex) := by
  rw [instructionBlocks]
  generalize hi : 0 = i
  clear hi
  induction steps generalizing i with
  | nil => simp [blocksAux]
  | cons s rest ih =>
      cases s with
      | text c =>
          rw [blocksAux]
          exact blocksAux_index_pairwise rest (i + 1) ⟨Step.text c, i, []⟩ (Nat.lt_succ_self i)
      | image c =>
          rw [blocksAux]
          exact ih (i + 1)

theorem insertLe_perm {α : Type} (le : α → α → Bool) (a : α) :
    ∀ l : List α, (insertLe le a l).Perm (a :: l)
  | [] => List.Perm.refl _
  | b :: rest => by
      rw [insertLe]
      by_cases h : le a b = true
      · rw [if_pos h]
      · rw [if_neg h]
        exact ((insertLe_perm le a rest).cons b).trans (List.Perm.swap a b rest)

theorem sortLe_perm {α : Type} (le : α → α → Bool) :
    ∀ l : List α, (sortLe le l).Perm l
  | [] => List.Perm.refl _
  | a :: rest => by
      rw [sortLe]
      exact (insertLe_perm le a (sortLe le rest)).trans ((sortLe_perm le rest).cons a)

theorem insertLe_pairwise {α : Type} (le : α → α → Bool)
    (htot : ∀ a b : α, le a b = false → le b a = true)
    (htrans : ∀ a b c : α, le a b = true → le b c = true → le a c = true) (a : α) :
    ∀ l : List α, l.Pairwise (fun x y => le x y = true) →
      (insertLe le a l).Pairwise (fun x y => le x y = true)
  | [], _ => by simp [insertLe]
  | b :: rest, hpw => by
      rw [List.pairwise_cons] at hpw
      rw [insertLe]
      by_cases h : le a b = true
      · rw [if_pos h, List.pairwise_cons]
        refine ⟨?_, List.pairwise_cons.mpr hpw⟩
        intro x hx
        rcases List.mem_cons.mp hx with rfl | hx
        · exact h
        · exact htrans a b x h (hpw.1 x hx)
      · rw [if_neg h, List.pairwise_cons]
        refine ⟨?_, insertLe_pairwise le htot htrans a rest hpw.2⟩
        intro x hx
        have hx' : x ∈ a :: rest := (insertLe_perm le a rest).mem_iff.mp hx
        rcases List.mem_cons.mp hx' with heq | hx'
        · rw [heq]
          exact htot a b (Bool.eq_false_iff.mpr h)
        · exact hpw.1 x hx'

theorem sortLe_pairwise {α : Type} (le : α → α → Bool)
    (htot : ∀ a b : α, le a b = false → le b a = true)
    (htrans : ∀ a b c : α, le a b = true → le b c = true → le a c = true) :
    ∀ l : List α, (sortLe le l).Pairwise (fun x y => le x y = true)
  | [] => by simp [sortLe]
  | a :: rest => by
      rw [sortLe]
      exact insertLe_pairwise le htot htrans a _ (sortLe_pairwise le htot htrans rest)

theorem mergeFold_done (S : List Nat) (chunk : List Step) :
    ∀ (bs : List Block) (acc : List Step),
      (mergeFold S chunk bs (acc, true)).1 =
        acc ++ bs.flatMap (fun b =>
          if S.contains b.textStepIndex then [] else blockSteps b)
  | [], acc => by simp [mergeFold]
  | b :: rest, acc => by
      rw [mergeFold]
      by_cases h1 : S.contains b.textStepIndex = true
      · rw [if_pos h1, if_neg (fun h => by simp at h)]
        rw [mergeFold_done S chunk rest acc, List.flatMap_cons, if_pos h1, List.nil_append]
      · rw [if_neg h1, mergeFold_done S chunk rest (acc ++ blockSteps b),
          List.flatMap_cons, if_neg h1, List.append_assoc]

theorem mergeFold_main (S : List Nat) (chunk : List Step) :
    ∀ (bs : List Block) (acc : List Step),
      List.Pairwise (· < ·) (bs.map Block.textStepIndex) →
      S.headD 0 ∈ bs.map Block.textStepIndex →
      S.contains (S.headD 0) = true →
      (∀ x : Nat, S.contains x = true → S.headD 0 ≤ x) →
      (mergeFold S chunk bs (acc, false)).1 =
        acc ++ bs.flatMap (fun b =>
          if S.contains b.textStepIndex then
            (if b.textStepIndex = S.headD 0 then chunk else [])
          else blockSteps b)
  | [], _, _, hmem, _, _ => by simp at hmem
  | b :: rest, acc, hpw, hmem, hcont, hmin => by
      rw [List.map_cons, List.pairwise_cons] at hpw
      rw [mergeFold]
      by_cases h1 : S.contains b.textStepIndex = true
      · have hbm : b.textStepIndex = S.headD 0 := by
          rcases List.mem_cons.mp hmem with h | h
          · exact h.symm
          · exfalso
            simp only [List.mem_map] at h
            obtain ⟨b', hb', hb'eq⟩ := h
            have h2 : b.textStepIndex < b'.textStepIndex := hpw.1 _ (List.mem_map_of_mem _ hb')
            have h3 : S.headD 0 ≤ b.textStepIndex := hmin _ h1
            omega
        rw [if_pos h1, if_pos ⟨hbm, rfl⟩]
        rw [mergeFold_done S chunk rest (acc ++ chunk)]
        rw [List.flatMap_cons, if_pos h1, if_pos hbm]
        rw [List.append_assoc]
        congr 1
        congr 1
        refine flatMapCongr ?_
        intro b' hb'
        by_cases h2 : S.contains b'.textStepIndex = true
        · rw [if_pos h2, if_pos h2, if_neg]
          intro hc
          have h3 : b.textStepIndex < b'.textStepIndex := hpw.1 _ (List.mem_map_of_mem _ hb')
          have h4 : S.headD 0 ≤ b.textStepIndex := hmin _ h1
          omega
        · rw [if_neg h2, if_neg h2]
      · have hne : b.textStepIndex ≠ S.headD 0 := by
          intro hc
          rw [hc] at h1
          exact h1 hcont
        have hmem' : S.headD 0 ∈ rest.map Block.textStepIndex := by
          rcases List.mem_cons.mp hmem with h | h
          · exact absurd h.symm hne
          · exact h
        rw [if_neg h1,
          mergeFold_main S chunk rest (acc ++ blockSteps b) hpw.2 hmem' hcont hmin]
        rw [List.flatMap_cons, if_neg h1, List.append_assoc]

/-- Claim C7: with two or more selected blocks, `handleMerge` replaces the
selected blocks by a single block at the first (lowest-index) selected
block's position, whose text is the selected texts joined by single
spaces in ascending block order and whose image steps are all the selected
blocks' image steps in original relative order; unselected blocks are
untouched. -/
theorem handleMerge_spec (steps : List Step) (selected : List Nat)
    (hlen : 2 ≤ selected.length)
    (hsub : ∀ x ∈ selected, x ∈ (instructionBlocks steps).map Block.textStepIndex) :
    ∃ m : Nat, m ∈ selected ∧ (∀ x ∈ selected, m ≤ x) ∧
      handleMerge steps selected =
        (instructionBlocks steps).flatMap (fun b =>
          if selected.contains b.textStepIndex then
            (if b.textStepIndex = m then
              Step.text (String.intercalate " "
                (((instructionBlocks steps).filter
                    (fun b => selected.contains b.textStepIndex)).map
                  (fun b => b.textStep.content))) ::
                ((instructionBlocks steps).filter
                    (fun b => selected.contains b.textStepIndex)).flatMap
                  (fun b => b.imageSteps)
            else [])
          else blockSteps b) := by
  have hsorted := sortLe_pairwise (fun a b : Nat => decide (a ≤ b))
    (fun a b hab => by simp only [decide_eq_false_iff_not, Nat.not_le] at hab; simp; omega)
    (fun a b c hab hbc => by
      simp only [decide_eq_true_eq] at hab hbc ⊢; omega) selected
  have hperm := sortLe_perm (fun a b : Nat => decide (a ≤ b)) selected
  have hne : sortLe (fun a b : Nat => decide (a ≤ b)) selected ≠ [] := by
    intro hc
    have := hperm.length_eq
    rw [hc] at this
    simp at this
    omega
  obtain ⟨y, ys, hys⟩ := List.exists_cons_of_ne_nil hne
  have hheadD : (sortLe (fun a b : Nat => decide (a ≤ b)) selected).headD 0 = y := by
    rw [hys]; rfl
  have hymem : y ∈ selected := hperm.mem_iff.mp (by rw [hys]; exact List.mem_cons_self _ _)
  have hymin : ∀ x ∈ selected, y ≤ x := by
    intro x hx
    have hx' : x ∈ y :: ys := by rw [← hys]; exact hperm.mem_iff.mpr hx
    rcases List.mem_cons.mp hx' with h | h
    · omega
    · have hpw := hsorted
      rw [hys, List.pairwise_cons] at hpw
      have := hpw.1 x h
      simpa using this
  have hcontains : ∀ x : Nat,
      (sortLe (fun a b : Nat => decide (a ≤ b)) selected).contains x = selected.contains x := by
    intro x
    simp only [List.contains, List.elem_eq_mem, hperm.mem_iff]
  refine ⟨y, hymem, hymin, ?_⟩
  rw [handleMerge, if_neg (by omega)]
  have hcont_y : (sortLe (fun a b : Nat => decide (a ≤ b)) selected).contains
      ((sortLe (fun a b : Nat => decide (a ≤ b)) selected).headD 0) = true := by
    rw [hheadD, hcontains]
    simp [List.contains, hymem]
  have hmin' : ∀ x : Nat,
      (sortLe (fun a b : Nat => decide (a ≤ b)) selected).contains x = true →
      (sortLe (fun a b : Nat => decide (a ≤ b)) selected).headD 0 ≤ x := by
    intro x hx
    rw [hcontains] at hx
    simp [List.contains] at hx
    rw [hheadD]
    exact hymin x hx
  have hymem' : (sortLe (fun a b : Nat => decide (a ≤ b)) selected).headD 0 ∈
      (instructionBlocks steps).map Block.textStepIndex := by
    rw [hheadD]
    exact hsub y hymem
  rw [mergeFold_main _ _ _ [] (instructionBlocks_index_pairwise steps) hymem' hcont_y hmin']
  rw [List.nil_append]
  rw [List.filter_congr (fun b _ => hcontains b.textStepIndex)]
  refine flatMapCongr ?_
  intro b _
  rw [hcontains b.textStepIndex, hheadD]

/-- Witness for C7: merging blocks with texts `A`,`B`,`C` and image lists
`[1]`, `[]`, `[2]` yields one block `A B C` with images `[1, 2]`. -/
theorem handleMerge_spec_witness :
    handleMerge [Step.text "A", Step.image "1", Step.text "B", Step.text "C", Step.image "2"]
        [0, 2, 3] =
      [Step.text "A B C", Step.image "1", Step.image "2"] ∧
    (∃ m : Nat, m ∈ [0, 2, 3] ∧ (∀ x ∈ [0, 2, 3], m ≤ x) ∧
      handleMerge [Step.text "A", Step.image "1", Step.text "C", Step.text "D", Step.image "2"]
          [0, 2, 3] =
        (instructionBlocks [Step.text "A", Step.image "1", Step.text "C", Step.text "D",
            Step.image "2"]).flatMap (fun b =>
          if List.contains [0, 2, 3] b.textStepIndex then
            (if b.textStepIndex = m then
              Step.text (String.intercalate " "
                (((instructionBlocks [Step.text "A", Step.image "1", Step.text "C", Step.text "D",
                    Step.image "2"]).filter
                    (fun b => List.contains [0, 2, 3] b.textStepIndex)).map
                  (fun b => b.textStep.content))) ::
                ((instructionBlocks [Step.text "A", Step.image "1", Step.text "C", Step.text "D",
                    Step.image "2"]).filter
                    (fun b => List.contains [0, 2, 3] b.textStepIndex)).flatMap
                  (fun b => b.imageSteps)
            else [])
          else blockSteps b)) :=
  ⟨by decide,
   handleMerge_spec
     [Step.text "A", Step.image "1", Step.text "C", Step.text "D", Step.image "2"]
     [0, 2, 3] (by decide) (by decide)⟩

/-- Claim C2: every block operation (`handleInsertStep`, `handleDeleteStep`,
`handleMerge`, `handleDrop`) applied to a well-formed step list yields a
list whose re-grouping via `instructionBlocks` reproduces it exactly: each
image step sits in the block of the nearest preceding text step, each
block's image steps are the contiguous run after its text step, and no
image step leaks into another block. -/
theorem blockOps_invariant (steps : List Step) (h : wfSteps steps) :
    (∀ afterBlockIndex : Int, goodGrouping (handleInsertStep steps afterBlockIndex)) ∧
    (∀ startIndex : Nat, goodGrouping (handleDeleteStep steps startIndex)) ∧
    (∀ selected : List Nat, goodGrouping (handleMerge steps selected)) ∧
    (∀ draggedIndex dragOverIndex : Nat,
      goodGrouping (handleDrop steps draggedIndex dragOverIndex)) :=
  ⟨fun a => wf_goodGrouping _ (wf_handleInsertStep steps h a),
   fun s => wf_goodGrouping _ (wf_handleDeleteStep steps h s),
   fun sel => wf_goodGrouping _ (wf_handleMerge steps h sel),
   fun i j => wf_goodGrouping _ (wf_handleDrop steps h i j)⟩

/-- Witness for C2 on a concrete two-block document. -/
theorem blockOps_invariant_witness :
    goodGrouping (handleInsertStep [Step.text "a", Step.image "1", Step.text "b"] 0) ∧
    goodGrouping (handleDeleteStep [Step.text "a", Step.image "1", Step.text "b"] 0) ∧
    goodGrouping (handleMerge [Step.text "a", Step.image "1", Step.text "b"] [0, 2]) ∧
    goodGrouping (handleDrop [Step.text "a", Step.image "1", Step.text "b"] 0 1) := by
  have hw := blockOps_invariant [Step.text "a", Step.image "1", Step.text "b"] (by trivial)
  exact ⟨hw.1 0, hw.2.1 0, hw.2.2.1 [0, 2], hw.2.2.2 0 1⟩

/-- Claim C1: the generic history utility's reference semantics: `set` is
equality-gated and clears `future`, `undo`/`redo` are mirrored stack pops
that no-op on empty stacks, and an effective `set x` followed by `undo`
followed by `redo` is exactly `set x`. -/
theorem useHistory_laws {T : Type} [DecidableEq T] (h : History T) (x : T) :
    (x = h.present → h.set x = h) ∧
    (x ≠ h.present → h.set x = ⟨h.past ++ [h.present], x, []⟩) ∧
    (h.past = [] → h.undo = h) ∧
    (∀ ps p, h.past = ps ++ [p] → h.undo = ⟨ps, p, h.present :: h.future⟩) ∧
    (h.future = [] → h.redo = h) ∧
    (∀ f fs, h.future = f :: fs → h.redo = ⟨h.past ++ [h.present], f, fs⟩) ∧
    (x ≠ h.present → ((h.set x).undo).redo = h.set x) := by
  refine ⟨?_, ?_, ?_, ?_, ?_, ?_, ?_⟩
  · intro hx; simp [History.set, hx]
  · intro hx; simp [History.set, hx]
  · intro hp; simp [History.undo, hp]
  · intro ps p hp; simp [History.undo, hp, List.getLast?_concat, List.dropLast_concat]
  · intro hf; simp [History.redo, hf]
  · intro f fs hf; simp [History.redo, hf]
  · intro hx
    have hset : h.set x = ⟨h.past ++ [h.present], x, []⟩ := by simp [History.set, hx]
    rw [hset]
    simp [History.undo, List.getLast?_concat, List.dropLast_concat, History.redo]

/-- Witness for C1 at a concrete history state and a fresh value. -/
theorem useHistory_laws_witness :
    (((⟨[0], 1, [2]⟩ : History Nat).set 3).undo).redo = (⟨[0], 1, [2]⟩ : History Nat).set 3 :=
  (useHistory_laws (⟨[0], 1, [2]⟩ : History Nat) 3).2.2.2.2.2.2 (by decide)

theorem flatMap_split {α β : Type} (f : α → List β) (l : List α) (x : α) (hx : x ∈ l) :
    ∃ pre suf, l.flatMap f = pre ++ f x ++ suf := by
  obtain ⟨l1, l2, rfl⟩ := List.append_of_mem hx
  exact ⟨l1.flatMap f, l2.flatMap f,
    by rw [List.flatMap_append, List.flatMap_cons, List.append_assoc]⟩

theorem blockLastIdx_append_image (b : Block) (c : String) :
    blockLastIdx { b with imageSteps := b.imageSteps ++ [Step.image c] } = parseIdx c := by
  simp [blockLastIdx, List.foldl_append]

theorem collectGo_eq_foldl :
    ∀ (l : List Step) (i : Nat) (b : Block) (m : List (Int × List Step)),
      collectGo l (blockSteps b) (blockLastIdx b) m =
        (blocksAux l i (some b)).foldl flushBlock m
  | [], _, b, m => by
      rw [blocksAux, collectGo, List.foldl_cons, List.foldl_nil, flushBlock]
      by_cases h : blockLastIdx b ≠ -1
      · rw [if_pos ⟨by simp [blockSteps], h⟩, if_pos h]
      · rw [if_neg (fun hc => h hc.2), if_neg h]
  | Step.text c :: rest, i, b, m => by
      rw [blocksAux, collectGo, if_pos (by simp [blockSteps] : 0 < (blockSteps b).length),
        List.foldl_cons]
      exact collectGo_eq_foldl rest (i + 1) ⟨Step.text c, i, []⟩ (flushBlock m b)
  | Step.image c :: rest, i, b, m => by
      rw [blocksAux, collectGo]
      have h1 : blockSteps b ++ [Step.image c] =
          blockSteps { b with imageSteps := b.imageSteps ++ [Step.image c] } := by
        simp [blockSteps]
      rw [h1, ← blockLastIdx_append_image b c]
      exact collectGo_eq_foldl rest (i + 1) _ m

theorem collectGo_closed (steps : List Step) (h : wfSteps steps)
    (m : List (Int × List Step)) :
    collectGo steps [] (-1) m = (instructionBlocks steps).foldl flushBlock m := by
  match steps, h with
  | [], _ => rfl
  | Step.text c :: rest, _ =>
      rw [instructionBlocks, blocksAux, collectGo, if_neg (by simp)]
      exact collectGo_eq_foldl rest 1 ⟨Step.text c, 0, []⟩ m

theorem lookup_mapSet_self (m : List (Int × List Step)) (k : Int) (v : List Step) :
    List.lookup k (mapSet m k v) = some v := by
  rw [mapSet, List.lookup_append]
  have h1 : List.lookup k (m.filter (fun p => p.1 ≠ k)) = none := by
    rw [List.lookup_eq_none_iff]
    intro p hp
    have := (List.mem_filter.mp hp).2
    simp at this ⊢
    omega
  rw [h1, Option.none_or, List.lookup_cons_self]

theorem lookup_mapSet_ne (m : List (Int × List Step)) (k k' : Int) (v : List Step)
    (h : k' ≠ k) : List.lookup k' (mapSet m k v) = List.lookup k' m := by
  rw [mapSet, List.lookup_append]
  have h2 : List.lookup k' [(k, v)] = none := by
    rw [List.lookup_eq_none_iff]
    intro p hp
    rw [List.mem_singleton] at hp
    subst hp
    simpa using h
  rw [h2, Option.or_none]
  have h3 : ∀ m0 : List (Int × List Step),
      List.lookup k' (m0.filter (fun p => p.1 ≠ k)) = List.lookup k' m0 := by
    intro m0
    induction m0 with
    | nil => rfl
    | cons p rest ih =>
        obtain ⟨k0, v0⟩ := p
        by_cases hk0 : k0 = k
        · rw [List.filter_cons, if_neg (by simp [hk0]), List.lookup_cons]
          have hke : (k' == k0) = false := by simp [hk0]; omega
          simp only [hke]
          exact ih
        · rw [List.filter_cons, if_pos (by simp [hk0]), List.lookup_cons, List.lookup_cons]
          by_cases hke : k' = k0
          · have hbe : (k' == k0) = true := by simp [hke]
            simp only [hbe]
          · have hbe : (k' == k0) = false := by simp [hke]
            simp only [hbe]
            exact ih
  exact h3 m

theorem lookup_foldl_of_ne (k : Int) :
    ∀ (bs : List Block) (m : List (Int × List Step)),
      (∀ b ∈ bs, blockLastIdx b ≠ -1 → blockLastIdx b ≠ k) →
      List.lookup k (bs.foldl flushBlock m) = List.lookup k m
  | [], _, _ => rfl
  | b0 :: rest, m, hne => by
      rw [List.foldl_cons]
      rw [lookup_foldl_of_ne k rest (flushBlock m b0)
        (fun b hb => hne b (List.mem_cons_of_mem _ hb))]
      rw [flushBlock]
      by_cases h0 : blockLastIdx b0 ≠ -1
      · rw [if_pos h0]
        exact lookup_mapSet_ne m _ k _ (fun hc => hne b0 (List.mem_cons_self _ _) h0 hc.symm)
      · rw [if_neg h0]

theorem blockKeys_cons (b : Block) (bs : List Block) :
    blockKeys (b :: bs) =
      if blockLastIdx b = -1 then blockKeys bs else blockLastIdx b :: blockKeys bs := by
  by_cases h : blockLastIdx b = -1
  · simp [blockKeys, List.filterMap_cons, h]
  · simp [blockKeys, List.filterMap_cons, h]

theorem mem_blockKeys_of_mem (bs : List Block) (b : Block) (hb : b ∈ bs)
    (hne : blockLastIdx b ≠ -1) : blockLastIdx b ∈ blockKeys bs := by
  rw [blockKeys, List.mem_filterMap]
  exact ⟨b, hb, by rw [if_neg hne]⟩

theorem lookup_foldl_self :
    ∀ (bs : List Block) (m : List (Int × List Step)),
      (blockKeys bs).Nodup →
      ∀ b ∈ bs, blockLastIdx b ≠ -1 →
      List.lookup (blockLastIdx b) (bs.foldl flushBlock m) = some (blockSteps b)
  | [], _, _, b, hb, _ => absurd hb (List.not_mem_nil b)
  | b0 :: rest, m, hnd, b, hb, hne => by
      rw [List.foldl_cons]
      rcases List.mem_cons.mp hb with heq | hmem
      · subst heq
        rw [lookup_foldl_of_ne _ rest (flushBlock m b) ?_]
        · rw [flushBlock, if_pos hne, lookup_mapSet_self]
        · intro b' hb' hb'ne hc
          rw [blockKeys_cons, if_neg hne] at hnd
          have h1 := (List.nodup_cons.mp hnd).1
          exact h1 (hc ▸ mem_blockKeys_of_mem rest b' hb' hb'ne)
      · refine lookup_foldl_self rest (flushBlock m b0) ?_ b hmem hne
        rw [blockKeys_cons] at hnd
        by_cases h0 : blockLastIdx b0 = -1
        · rwa [if_pos h0] at hnd
        · rw [if_neg h0] at hnd
          exact (List.nodup_cons.mp hnd).2

theorem blockLastIdx_cases (b : Block) :
    blockLastIdx b = -1 ∨
      ∃ c, Step.image c ∈ b.imageSteps ∧ blockLastIdx b = parseIdx c := by
  rw [blockLastIdx]
  induction b.imageSteps using List.reverseRecOn with
  | nil => exact Or.inl rfl
  | append_singleton xs x ih =>
      rw [List.foldl_append, List.foldl_cons, List.foldl_nil]
      cases x with
      | image c =>
          exact Or.inr ⟨c, List.mem_append_right _ (List.mem_singleton_self _), rfl⟩
      | text t =>
          rcases ih with h | ⟨c', hc', hfold⟩
          · exact Or.inl h
          · exact Or.inr ⟨c', List.mem_append_left _ hc', hfold⟩

theorem blockKey_mem_existing (steps : List Step) (hwf : wfSteps steps) (b : Block)
    (hb : b ∈ instructionBlocks steps) (hne : blockLastIdx b ≠ -1) :
    blockLastIdx b ∈ existingIdx steps := by
  rcases blockLastIdx_cases b with h | ⟨c, hc, hfold⟩
  · exact absurd h hne
  · have hstep : Step.image c ∈ steps := by
      rw [← flatten_instructionBlocks steps hwf, flattenBlocks, List.mem_flatMap]
      exact ⟨b, hb, List.mem_cons_of_mem _ hc⟩
    rw [existingIdx, hfold]
    exact List.mem_map.mpr ⟨Step.image c, List.mem_filter.mpr ⟨hstep, rfl⟩, rfl⟩

/-- Claim C3, corrected: the incremental merge reassembles in image-index
order and keeps every pre-existing block that references an image (its
last image step parsing to a valid, uniquely-referenced index) intact and
whole, interleaved with a generated block for each unreferenced image —
but blocks whose text step has no image steps are dropped, contrary to
the claim. -/
theorem mergeInstructions_preserves (steps : List Step) (numImages : Nat)
    (gen : Nat → List Step)
    (hwf : wfSteps steps)
    (hkeys : (blockKeys (instructionBlocks steps)).Nodup)
    (hrange : ∀ b ∈ instructionBlocks steps, blockLastIdx b ≠ -1 →
      0 ≤ blockLastIdx b ∧ blockLastIdx b < numImages)
    (hnew : ∃ i : Nat, i < numImages ∧ (i : Int) ∉ existingIdx steps) :
    (∀ b ∈ instructionBlocks steps, blockLastIdx b ≠ -1 →
      ∃ pre suf, mergeInstructions steps numImages gen = pre ++ blockSteps b ++ suf) ∧
    (∀ i : Nat, i < numImages → (i : Int) ∉ existingIdx steps →
      ∃ pre suf, mergeInstructions steps numImages gen =
        pre ++ processedSteps i (gen i) ++ suf) := by
  obtain ⟨i0, hi0, hi0mem⟩ := hnew
  have hguard : ¬ ((List.range numImages).filter
      (fun i : Nat => ¬ (existingIdx steps).contains ((i : Nat) : Int))).length = 0 := by
    intro hc
    rw [List.length_eq_zero] at hc
    have hmem0 : i0 ∈ (List.range numImages).filter
        (fun i : Nat => ¬ (existingIdx steps).contains ((i : Nat) : Int)) := by
      rw [List.mem_filter]
      refine ⟨List.mem_range.mpr hi0, ?_⟩
      simp only [List.contains, List.elem_eq_mem, decide_eq_true_eq]
      exact hi0mem
    rw [hc] at hmem0
    exact List.not_mem_nil i0 hmem0
  have hout : mergeInstructions steps numImages gen =
      (List.range numImages).flatMap (fun i : Nat =>
        (List.lookup ((i : Nat) : Int) (collectGo steps [] (-1) [])).getD
          (if ((List.range numImages).filter
              (fun i : Nat => ¬ (existingIdx steps).contains ((i : Nat) : Int))).contains i then
            processedSteps i (gen i)
          else [])) := by
    rw [mergeInstructions, if_neg hguard]
  constructor
  · intro b hb hne
    obtain ⟨h0, hlt⟩ := hrange b hb hne
    obtain ⟨iN, hiN⟩ : ∃ iN : Nat, (iN : Int) = blockLastIdx b :=
      ⟨(blockLastIdx b).toNat, Int.toNat_of_nonneg h0⟩
    have hiNlt : iN < numImages := by omega
    obtain ⟨pre, suf, hps⟩ := flatMap_split
      (fun i : Nat =>
        (List.lookup ((i : Nat) : Int) (collectGo steps [] (-1) [])).getD
          (if ((List.range numImages).filter
              (fun i : Nat => ¬ (existingIdx steps).contains ((i : Nat) : Int))).contains i then
            processedSteps i (gen i)
          else []))
      (List.range numImages) iN (List.mem_range.mpr hiNlt)
    have hlook : List.lookup ((iN : Nat) : Int) (collectGo steps [] (-1) []) =
        some (blockSteps b) := by
      rw [collectGo_closed steps hwf, hiN]
      exact lookup_foldl_self (instructionBlocks steps) [] hkeys b hb hne
    simp only [hlook, Option.getD_some] at hps
    exact ⟨pre, suf, by rw [hout]; exact hps⟩
  · intro i hilt himem
    obtain ⟨pre, suf, hps⟩ := flatMap_split
      (fun i : Nat =>
        (List.lookup ((i : Nat) : Int) (collectGo steps [] (-1) [])).getD
          (if ((List.range numImages).filter
              (fun i : Nat => ¬ (existingIdx steps).contains ((i : Nat) : Int))).contains i then
            processedSteps i (gen i)
          else []))
      (List.range numImages) i (List.mem_range.mpr hilt)
    have hlook : List.lookup ((i : Nat) : Int) (collectGo steps [] (-1) []) = none := by
      rw [collectGo_closed steps hwf,
        lookup_foldl_of_ne _ (instructionBlocks steps) [] ?_, List.lookup_nil]
      intro b hb hbne hc
      exact himem (hc ▸ blockKey_mem_existing steps hwf b hb hbne)
    have hcont : ((List.range numImages).filter
        (fun i : Nat => ¬ (existingIdx steps).contains ((i : Nat) : Int))).contains i = true := by
      simp only [List.contains, List.elem_eq_mem, decide_eq_true_eq]
      rw [List.mem_filter]
      refine ⟨List.mem_range.mpr hilt, ?_⟩
      simp only [List.contains, List.elem_eq_mem, decide_eq_true_eq]
      exact himem
    simp only [hlook, Option.getD_none] at hps
    rw [if_pos hcont] at hps
    exact ⟨pre, suf, by rw [hout]; exact hps⟩

/-- Counterexample to claim C3 as stated: a pre-existing block whose text
step has no trailing image steps (`"A"`) is dropped by the incremental
merge, so it does not appear intact in the output. -/
theorem mergeInstructions_drops_imageless_block :
    (⟨Step.text "A", 0, []⟩ : Block) ∈
        instructionBlocks [Step.text "A", Step.text "B", Step.image "1"] ∧
      Step.text "A" ∉
        mergeInstructions [Step.text "A", Step.text "B", Step.image "1"] 2
          (fun _ => [Step.text "G", Step.image "0"]) := by
  decide

/-- Witness for C3's amended theorem on a concrete two-image document. -/
theorem mergeInstructions_preserves_witness :
    (∀ b ∈ instructionBlocks [Step.text "B", Step.image "1"], blockLastIdx b ≠ -1 →
      ∃ pre suf, mergeInstructions [Step.text "B", Step.image "1"] 2
        (fun _ => [Step.text "G", Step.image "0"]) = pre ++ blockSteps b ++ suf) ∧
    (∀ i : Nat, i < 2 → (i : Int) ∉ existingIdx [Step.text "B", Step.image "1"] →
      ∃ pre suf, mergeInstructions [Step.text "B", Step.image "1"] 2
        (fun _ => [Step.text "G", Step.image "0"]) =
          pre ++ processedSteps i [Step.text "G", Step.image "0"] ++ suf) :=
  mergeInstructions_preserves [Step.text "B", Step.image "1"] 2
    (fun _ => [Step.text "G", Step.image "0"])
    (by trivial) (by decide) (by decide) (by decide)

theorem rotatePoint_id (T : TrigOps) (p c : Pt) (angle : Rat)
    (hc : T.cosF angle = 1) (hs : T.sinF angle = 0) :
    rotatePoint T p c angle = p := by
  obtain ⟨px, py⟩ := p
  simp only [rotatePoint, hc, hs, Pt.mk.injEq]
  constructor <;> ring

theorem isPointInsideAnn_eq_bbox (T : TrigOps) (measureText : Rat → String → Rat)
    (a : Ann) (p : Pt) (w : Rat)
    (hnt : a.type ≠ AnnType.text) (hnn : a.type ≠ AnnType.number)
    (hw : a.lineWidth = some w) (hw0 : w ≠ 0) :
    (isPointInsideAnn T measureText p a = true ↔
      ((getAnnBounds a).minX - (w + 4) ≤
          (rotatePoint T p (getAnnCenter a) (-a.rotation)).x ∧
        (rotatePoint T p (getAnnCenter a) (-a.rotation)).x ≤
          (getAnnBounds a).maxX + (w + 4) ∧
        (getAnnBounds a).minY - (w + 4) ≤
          (rotatePoint T p (getAnnCenter a) (-a.rotation)).y ∧
        (rotatePoint T p (getAnnCenter a) (-a.rotation)).y ≤
          (getAnnBounds a).maxY + (w + 4))) := by
  have hbuf : lineWidthOrDefault a = w := by
    rw [lineWidthOrDefault, hw]
    exact if_neg hw0
  rw [isPointInsideAnn, if_neg hnn]
  have hbb : annBoundsHit a (rotatePoint T p (getAnnCenter a) (-a.rotation)) = true ↔
      ((getAnnBounds a).minX - (w + 4) ≤
          (rotatePoint T p (getAnnCenter a) (-a.rotation)).x ∧
        (rotatePoint T p (getAnnCenter a) (-a.rotation)).x ≤
          (getAnnBounds a).maxX + (w + 4) ∧
        (getAnnBounds a).minY - (w + 4) ≤
          (rotatePoint T p (getAnnCenter a) (-a.rotation)).y ∧
        (rotatePoint T p (getAnnCenter a) (-a.rotation)).y ≤
          (getAnnBounds a).maxY + (w + 4)) := by
    rw [annBoundsHit, hbuf]
    simp only [Bool.and_eq_true, decide_eq_true_eq, ge_iff_le]
    tauto
  cases hta : a.type with
  | text => exact absurd hta hnt
  | number => exact absurd hta hnn
  | rectangle => exact hbb
  | arrow => exact hbb
  | circle => exact hbb
  | pencil => exact hbb
  | blur => exact hbb

/-- Claim C5: for annotations other than text and number badges,
hit-testing rotates the point into the local frame and tests containment
in the bounds expanded by `lineWidth + 4`; in particular a point
`lineWidth/2 + 1` outside an unrotated rectangle's stroke is a hit and a
point `lineWidth/2 + 10` outside is not. -/
theorem hitTest_tolerance (T : TrigOps) (measureText : Rat → String → Rat) :
    (∀ (a : Ann) (p : Pt) (w : Rat), a.type ≠ AnnType.text → a.type ≠ AnnType.number →
      a.lineWidth = some w → w ≠ 0 →
      (isPointInsideAnn T measureText p a = true ↔
        ((getAnnBounds a).minX - (w + 4) ≤
            (rotatePoint T p (getAnnCenter a) (-a.rotation)).x ∧
          (rotatePoint T p (getAnnCenter a) (-a.rotation)).x ≤
            (getAnnBounds a).maxX + (w + 4) ∧
          (getAnnBounds a).minY - (w + 4) ≤
            (rotatePoint T p (getAnnCenter a) (-a.rotation)).y ∧
          (rotatePoint T p (getAnnCenter a) (-a.rotation)).y ≤
            (getAnnBounds a).maxY + (w + 4)))) ∧
    (∀ x1 y1 x2 y2 w py : Rat, x1 ≤ x2 → y1 ≤ py → py ≤ y2 → 0 < w →
      isPointInsideAnn T measureText ⟨x2 + w / 2 + (w / 2 + 1), py⟩
          { id := 1, type := AnnType.rectangle, color := "", lineWidth := some w,
            start := ⟨x1, y1⟩, endPt := ⟨x2, y2⟩, rotation := 0 } = true ∧
        isPointInsideAnn T measureText ⟨x2 + w / 2 + (w / 2 + 10), py⟩
          { id := 1, type := AnnType.rectangle, color := "", lineWidth := some w,
            start := ⟨x1, y1⟩, endPt := ⟨x2, y2⟩, rotation := 0 } = false) := by
  constructor
  · intro a p w hnt hnn hw hw0
    exact isPointInsideAnn_eq_bbox T measureText a p w hnt hnn hw hw0
  · intro x1 y1 x2 y2 w py h12 hy1 hy2 hw
    have hy12 : y1 ≤ y2 := le_trans hy1 hy2
    have hrect : ∀ q : Pt,
        (isPointInsideAnn T measureText q
            { id := 1, type := AnnType.rectangle, color := "", lineWidth := some w,
              start := ⟨x1, y1⟩, endPt := ⟨x2, y2⟩, rotation := 0 } = true ↔
          (x1 - (w + 4) ≤ q.x ∧ q.x ≤ x2 + (w + 4) ∧
            y1 - (w + 4) ≤ q.y ∧ q.y ≤ y2 + (w + 4))) := by
      intro q
      have h := isPointInsideAnn_eq_bbox T measureText
        ({ id := 1, type := AnnType.rectangle, color := "", lineWidth := some w,
           start := ⟨x1, y1⟩, endPt := ⟨x2, y2⟩, rotation := 0 }) q w
        (fun hc => AnnType.noConfusion hc) (fun hc => AnnType.noConfusion hc) rfl hw.ne'
      have hrot : rotatePoint T q
          (getAnnCenter
            ({ id := 1, type := AnnType.rectangle, color := "", lineWidth := some w,
               start := ⟨x1, y1⟩, endPt := ⟨x2, y2⟩, rotation := 0 }))
          (-(0 : Rat)) = q := by
        refine rotatePoint_id T q _ (-(0 : Rat)) ?_ ?_
        · rw [neg_zero, T.cos_zero]
        · rw [neg_zero, T.sin_zero]
      have hbounds : getAnnBounds
          ({ id := 1, type := AnnType.rectangle, color := "", lineWidth := some w,
             start := ⟨x1, y1⟩, endPt := ⟨x2, y2⟩, rotation := 0 }) =
          ⟨x1, y1, x2, y2, x2 - x1, y2 - y1⟩ := by
        rw [getAnnBounds, if_neg (fun hc => AnnType.noConfusion hc)]
        simp only [min_eq_left h12, max_eq_right h12, min_eq_left hy12, max_eq_right hy12]
      rw [hrot, hbounds] at h
      exact h
    constructor
    · rw [hrect ⟨x2 + w / 2 + (w / 2 + 1), py⟩]
      refine ⟨by linarith, by linarith, by linarith, by linarith⟩
    · rw [Bool.eq_false_iff]
      intro hh
      have hP := (hrect ⟨x2 + w / 2 + (w / 2 + 10), py⟩).mp hh
      have := hP.2.1
      simp only at this
      linarith

/-- Witness for C5 at a concrete rectangle (`start = (0,0)`, `end =
(50,40)`, `lineWidth = 4`): the point `(55, 20)` (one pixel past the
tolerated band) hits, the point `(64, 20)` does not. -/
theorem hitTest_tolerance_witness :
    isPointInsideAnn trivialTrig (fun _ _ => 0) ⟨50 + 4 / 2 + (4 / 2 + 1), 20⟩
        { id := 1, type := AnnType.rectangle, color := "", lineWidth := some 4,
          start := ⟨0, 0⟩, endPt := ⟨50, 40⟩, rotation := 0 } = true ∧
      isPointInsideAnn trivialTrig (fun _ _ => 0) ⟨50 + 4 / 2 + (4 / 2 + 10), 20⟩
        { id := 1, type := AnnType.rectangle, color := "", lineWidth := some 4,
          start := ⟨0, 0⟩, endPt := ⟨50, 40⟩, rotation := 0 } = false :=
  (hitTest_tolerance trivialTrig (fun _ _ => 0)).2 0 0 50 40 4 20
    (by norm_num) (by norm_num) (by norm_num) (by norm_num)

/-- Claim C4: during an in-progress annotation gesture (drawing, moving,
resizing or rotating — the annotation tools, not crop), a pointer move
rewrites at most the in-progress draft: every other state component,
including the committed list and its undo history, is unchanged. The
committed list changes only at pointer-up: the draft is appended when the
gesture was `drawing`, and replaces the committed annotation with its id
when the gesture was `moving`/`resizing`/`rotating`. -/
theorem pointer_gesture_draft_only (T : TrigOps) (measureText : Rat → String → Rat)
    (s : AnnotatorState) (p : Pt) (d : Ann)
    (htool : s.tool ≠ Tool.crop)
    (hact : s.currentAction = Action.drawing ∨ s.currentAction = Action.moving ∨
      s.currentAction = Action.resizing ∨ s.currentAction = Action.rotating)
    (hdraft : s.drawingAnn = some d) :
    (∃ d' : Option Ann, mouseMove T measureText s p = { s with drawingAnn := d' }) ∧
    (mouseMove T measureText s p).history = s.history ∧
    (s.currentAction = Action.drawing →
      (mouseUp s).history.present = s.history.present ++ [d] ∧
      (mouseUp s).drawingAnn = none) ∧
    ((s.currentAction = Action.moving ∨ s.currentAction = Action.resizing ∨
        s.currentAction = Action.rotating) →
      (mouseUp s).history.present =
        s.history.present.map (fun a => if a.id = d.id then d else a) ∧
      (mouseUp s).drawingAnn = none) := by
  have hne : s.currentAction ≠ Action.none := by
    rcases hact with h | h | h | h <;> rw [h] <;> intro hc <;> cases hc
  have hguard1 : ¬ (s.tool = Tool.crop ∧ s.cropRect.isSome = true) :=
    fun hc => htool hc.1
  have hguard2 : ¬ (s.currentAction = Action.none ∨ s.drawingAnn = none) := by
    rintro (h | h)
    · exact hne h
    · rw [hdraft] at h; cases h
  have hmove : ∃ d' : Option Ann, mouseMove T measureText s p = { s with drawingAnn := d' } := by
    rw [mouseMove, if_neg hguard1, if_neg hguard2]
    repeat' split
    all_goals exact ⟨_, rfl⟩
  refine ⟨hmove, ?_, ?_, ?_⟩
  · obtain ⟨d', hd'⟩ := hmove
    rw [hd']
  · intro hA
    have hne2 : s.history.present ++ [d] ≠ s.history.present := by
      intro hc
      have := congrArg List.length hc
      simp at this
    rw [mouseUp, if_neg htool, hdraft, hA]
    constructor
    · show (s.history.set (s.history.present ++ [d])).present = _
      rw [History.set, if_neg hne2]
    · rfl
  · intro hA3
    have key : ∀ replaced : List Ann, (s.history.set replaced).present = replaced := by
      intro replaced
      rw [History.set]
      by_cases hceq : replaced = s.history.present
      · rw [if_pos hceq, hceq]
      · rw [if_neg hceq]
    rcases hA3 with hA | hA | hA <;> rw [mouseUp, if_neg htool, hdraft, hA] <;>
      exact ⟨key _, rfl⟩

/-- Witness for C4 on a concrete mid-`moving` state. -/
theorem pointer_gesture_draft_only_witness :
    (∃ d' : Option Ann, mouseMove trivialTrig (fun _ _ => 0) sampleState ⟨3, 4⟩ =
      { sampleState with drawingAnn := d' }) ∧
    (mouseMove trivialTrig (fun _ _ => 0) sampleState ⟨3, 4⟩).history =
      sampleState.history ∧
    (sampleState.currentAction = Action.drawing →
      (mouseUp sampleState).history.present = sampleState.history.present ++ [sampleDraft] ∧
      (mouseUp sampleState).drawingAnn = none) ∧
    ((sampleState.currentAction = Action.moving ∨
        sampleState.currentAction = Action.resizing ∨
        sampleState.currentAction = Action.rotating) →
      (mouseUp sampleState).history.present =
        sampleState.history.present.map
          (fun a => if a.id = sampleDraft.id then sampleDraft else a) ∧
      (mouseUp sampleState).drawingAnn = none) :=
  pointer_gesture_draft_only trivialTrig (fun _ _ => 0) sampleState ⟨3, 4⟩ sampleDraft
    (by decide) (by decide) rfl

/-- Claim C6: a new badge's label is `max(existing labels) + 1` (or `1`),
so starting from any list with no number annotations, creating three
badges, deleting the second, then creating a fourth yields the labels
`1, 3, 4` — the freed label `2` is not reused and the count-based `3` is
not produced. -/
theorem numbering_continuity (anns : List Ann) (p1 p2 p3 p4 : Pt)
    (id1 id2 id3 id4 : Nat) (c : String) (sz : Rat)
    (hnone : ∀ a ∈ anns, a.type ≠ AnnType.number)
    (h12 : id1 ≠ id2) (h32 : id3 ≠ id2) :
    ((numberMouseDown (handleDeleteSelected (numberMouseDown (numberMouseDown
          (numberMouseDown anns p1 id1 c sz) p2 id2 c sz) p3 id3 c sz) id2)
        p4 id4 c sz).filter (fun a => a.type = AnnType.number)).map
      (fun a => a.text) = [some "1", some "3", some "4"] := by
  have hfilterN : anns.filter
      (fun a => a.type = AnnType.number ∧ textTruthy a.text) = [] := by
    rw [List.filter_eq_nil_iff]
    intro a ha
    simp [hnone a ha]
  have ht1 : toString (1 : Int) = "1" := by decide
  have ht2 : toString (2 : Int) = "2" := by decide
  have ht3 : toString (3 : Int) = "3" := by decide
  have ht4 : toString (4 : Int) = "4" := by decide
  have hn1 : nextNumber anns = 1 := by
    rw [nextNumber, hfilterN]
    rfl
  have e1 : numberMouseDown anns p1 id1 c sz = anns ++ [badgeLit id1 "1" c sz p1] := by
    rw [numberMouseDown, mkNumberAnn, badgeLit, hn1, ht1]
  have hn2 : nextNumber (anns ++ [badgeLit id1 "1" c sz p1]) = 2 := by
    rw [nextNumber, List.filter_append, hfilterN, List.nil_append]
    rfl
  have e2 : numberMouseDown (anns ++ [badgeLit id1 "1" c sz p1]) p2 id2 c sz =
      anns ++ [badgeLit id1 "1" c sz p1, badgeLit id2 "2" c sz p2] := by
    rw [numberMouseDown, mkNumberAnn, hn2, ht2, List.append_assoc]
    rfl
  have hn3 : nextNumber
      (anns ++ [badgeLit id1 "1" c sz p1, badgeLit id2 "2" c sz p2]) = 3 := by
    rw [nextNumber, List.filter_append, hfilterN, List.nil_append]
    rfl
  have e3 : numberMouseDown
      (anns ++ [badgeLit id1 "1" c sz p1, badgeLit id2 "2" c sz p2]) p3 id3 c sz =
      anns ++ [badgeLit id1 "1" c sz p1, badgeLit id2 "2" c sz p2,
        badgeLit id3 "3" c sz p3] := by
    rw [numberMouseDown, mkNumberAnn, hn3, ht3, List.append_assoc]
    rfl
  have e4 : handleDeleteSelected
      (anns ++ [badgeLit id1 "1" c sz p1, badgeLit id2 "2" c sz p2,
        badgeLit id3 "3" c sz p3]) id2 =
      anns.filter (fun a => a.id ≠ id2) ++
        [badgeLit id1 "1" c sz p1, badgeLit id3 "3" c sz p3] := by
    rw [handleDeleteSelected, List.filter_append]
    congr 1
    simp [List.filter, badgeLit, h12, h32]
  have hfilterN2 : (anns.filter (fun a => a.id ≠ id2)).filter
      (fun a => a.type = AnnType.number ∧ textTruthy a.text) = [] := by
    rw [List.filter_eq_nil_iff]
    intro a ha
    simp [hnone a (List.mem_of_mem_filter ha)]
  have hn4 : nextNumber (anns.filter (fun a => a.id ≠ id2) ++
      [badgeLit id1 "1" c sz p1, badgeLit id3 "3" c sz p3]) = 4 := by
    rw [nextNumber, List.filter_append, hfilterN2, List.nil_append]
    rfl
  have e5 : numberMouseDown (anns.filter (fun a => a.id ≠ id2) ++
      [badgeLit id1 "1" c sz p1, badgeLit id3 "3" c sz p3]) p4 id4 c sz =
      anns.filter (fun a => a.id ≠ id2) ++
        [badgeLit id1 "1" c sz p1, badgeLit id3 "3" c sz p3,
          badgeLit id4 "4" c sz p4] := by
    rw [numberMouseDown, mkNumberAnn, hn4, ht4, List.append_assoc]
    rfl
  rw [e1, e2, e3, e4, e5, List.filter_append]
  have hfT : (anns.filter (fun a => a.id ≠ id2)).filter
      (fun a => a.type = AnnType.number) = [] := by
    rw [List.filter_eq_nil_iff]
    intro a ha
    simp [hnone a (List.mem_of_mem_filter ha)]
  rw [hfT, List.nil_append]
  rfl

/-- Witness for C6 starting from the empty annotation list. -/
theorem numbering_continuity_witness :
    ((numberMouseDown (handleDeleteSelected (numberMouseDown (numberMouseDown
          (numberMouseDown [] ⟨0, 0⟩ 1 "#ef4444" 16) ⟨1, 1⟩ 2 "#ef4444" 16) ⟨2, 2⟩ 3
          "#ef4444" 16) 2) ⟨3, 3⟩ 4 "#ef4444" 16).filter
        (fun a => a.type = AnnType.number)).map (fun a => a.text) =
      [some "1", some "3", some "4"] :=
  numbering_continuity [] ⟨0, 0⟩ ⟨1, 1⟩ ⟨2, 2⟩ ⟨3, 3⟩ 1 2 3 4 "#ef4444" 16
    (by intro a ha; cases ha) (by decide) (by decide)


/-- C8: full generation is atomic with respect to the document. With an API
key set and at least one image, if the generation collaborator rejects, the
document history (title, steps, undo stacks) is exactly what it was before
the call, the error message is surfaced, and the busy flag is cleared; if it
resolves, the returned document replaces the document as a fresh history
baseline (empty past and future), the error is cleared, and the busy flag is
cleared. -/
theorem generation_atomic (s : AppState) (gen : Except String DocumentState)
    (keyMsg noImgMsg : String)
    (hkey : s.hasApiKey = true) (himg : s.numImages ≠ 0) :
    (∀ msg, gen = Except.error msg →
        (generateAll s gen keyMsg noImgMsg).docHistory = s.docHistory ∧
        (generateAll s gen keyMsg noImgMsg).error = some msg ∧
        (generateAll s gen keyMsg noImgMsg).isLoading = false) ∧
    (∀ doc, gen = Except.ok doc →
        (generateAll s gen keyMsg noImgMsg).docHistory =
          History.resetState doc ∧
        (generateAll s gen keyMsg noImgMsg).error = none ∧
        (generateAll s gen keyMsg noImgMsg).isLoading = false) := by
  constructor
  · intro msg hmsg
    subst hmsg
    simp [generateAll, hkey, himg]
  · intro doc hdoc
    subst hdoc
    simp [generateAll, hkey, himg]

theorem generation_atomic_witness :
    (generateAll sampleApp (Except.error "boom") "k" "n").docHistory =
        sampleApp.docHistory ∧
    (generateAll sampleApp (Except.error "boom") "k" "n").error = some "boom" ∧
    (generateAll sampleApp (Except.error "boom") "k" "n").isLoading = false :=
  (generation_atomic sampleApp (Except.error "boom") "k" "n" rfl
    (by decide)).1 "boom" rfl

theorem decChar_encChar_fin : ∀ v : Fin 64, decChar (encChar v.val) = v.val := by
  decide

theorem decChar_encChar (v : Nat) (h : v < 64) : decChar (encChar v) = v :=
  decChar_encChar_fin ⟨v, h⟩

theorem encChar_ne_eqSign_fin : ∀ v : Fin 64, encChar v.val ≠ '=' := by
  decide

theorem encChar_ne_eqSign (v : Nat) (h : v < 64) : encChar v ≠ '=' :=
  encChar_ne_eqSign_fin ⟨v, h⟩

theorem encChar_ne_comma (v : Nat) : encChar v ≠ ',' := by
  rcases Nat.lt_or_ge v 64 with h | h
  · intro hc
    have hv : v = decChar ',' := by rw [← decChar_encChar v h, hc]
    have h64 : decChar ',' = 64 := by decide
    omega
  · unfold encChar
    rw [List.getD_eq_default]
    · decide
    · have hlen : b64Table.length = 64 := by decide
      omega

theorem comma_not_mem_encodeB64 : ∀ (bytes : List Nat), ',' ∉ encodeB64 bytes
  | [] => by simp [encodeB64]
  | [b0] => by
      intro hm
      simp only [encodeB64, List.mem_cons, List.not_mem_nil, or_false] at hm
      rcases hm with hm | hm | hm | hm
      · exact encChar_ne_comma _ hm.symm
      · exact encChar_ne_comma _ hm.symm
      · exact absurd hm (by decide)
      · exact absurd hm (by decide)
  | [b0, b1] => by
      intro hm
      simp only [encodeB64, List.mem_cons, List.not_mem_nil, or_false] at hm
      rcases hm with hm | hm | hm | hm
      · exact encChar_ne_comma _ hm.symm
      · exact encChar_ne_comma _ hm.symm
      · exact encChar_ne_comma _ hm.symm
      · exact absurd hm (by decide)
  | b0 :: b1 :: b2 :: rest => by
      intro hm
      simp only [encodeB64, List.mem_cons] at hm
      rcases hm with hm | hm | hm | hm | hm
      · exact encChar_ne_comma _ hm.symm
      · exact encChar_ne_comma _ hm.symm
      · exact encChar_ne_comma _ hm.symm
      · exact encChar_ne_comma _ hm.symm
      · exact comma_not_mem_encodeB64 rest hm

theorem decode_encodeB64 : ∀ (bytes : List Nat), (∀ b ∈ bytes, b < 256) →
    decodeB64 (encodeB64 bytes) = bytes
  | [], _ => rfl
  | [b0], h => by
      have h0 : b0 < 256 := h b0 (by simp)
      have e : decodeB64 (encodeB64 [b0]) =
          [decChar (encChar (b0 / 4)) * 4 + decChar (encChar (b0 % 4 * 16)) / 16] := rfl
      rw [e, decChar_encChar _ (by omega), decChar_encChar _ (by omega)]
      simp only [List.cons.injEq, and_true]
      omega
  | [b0, b1], h => by
      have h0 : b0 < 256 := h b0 (by simp)
      have h1 : b1 < 256 := h b1 (by simp)
      have e : decodeB64 (encodeB64 [b0, b1]) =
          (if encChar (b1 % 16 * 4) = '=' then
            [decChar (encChar (b0 / 4)) * 4 +
              decChar (encChar (b0 % 4 * 16 + b1 / 16)) / 16]
          else
            [decChar (encChar (b0 / 4)) * 4 +
              decChar (encChar (b0 % 4 * 16 + b1 / 16)) / 16,
             decChar (encChar (b0 % 4 * 16 + b1 / 16)) % 16 * 16 +
              decChar (encChar (b1 % 16 * 4)) / 4]) := rfl
      rw [e, if_neg (encChar_ne_eqSign _ (by omega)),
        decChar_encChar _ (by omega), decChar_encChar _ (by omega),
        decChar_encChar _ (by omega)]
      simp only [List.cons.injEq, and_true]
      omega
  | b0 :: b1 :: b2 :: rest, h => by
      have h0 : b0 < 256 := h b0 (by simp)
      have h1 : b1 < 256 := h b1 (by simp)
      have h2 : b2 < 256 := h b2 (by simp)
      have hrest : ∀ b ∈ rest, b < 256 := fun b hb => h b (by simp [hb])
      have e : decodeB64 (encodeB64 (b0 :: b1 :: b2 :: rest)) =
          (if encChar (b1 % 16 * 4 + b2 / 64) = '=' then
            [decChar (encChar (b0 / 4)) * 4 +
              decChar (encChar (b0 % 4 * 16 + b1 / 16)) / 16]
          else if encChar (b2 % 64) = '=' then
            [decChar (encChar (b0 / 4)) * 4 +
              decChar (encChar (b0 % 4 * 16 + b1 / 16)) / 16,
             decChar (encChar (b0 % 4 * 16 + b1 / 16)) % 16 * 16 +
              decChar (encChar (b1 % 16 * 4 + b2 / 64)) / 4]
          else
            (decChar (encChar (b0 / 4)) * 4 +
              decChar (encChar (b0 % 4 * 16 + b1 / 16)) / 16) ::
            (decChar (encChar (b0 % 4 * 16 + b1 / 16)) % 16 * 16 +
              decChar (encChar (b1 % 16 * 4 + b2 / 64)) / 4) ::
            (decChar (encChar (b1 % 16 * 4 + b2 / 64)) % 4 * 64 +
              decChar (encChar (b2 % 64))) ::
            decodeB64 (encodeB64 rest)) := rfl
      rw [e, if_neg (encChar_ne_eqSign _ (by omega)),
        if_neg (encChar_ne_eqSign _ (by omega)),
        decChar_encChar _ (by omega), decChar_encChar _ (by omega),
        decChar_encChar _ (by omega), decChar_encChar _ (by omega),
        decode_encodeB64 rest hrest]
      simp only [List.cons.injEq, and_true]
      omega

theorem splitOnComma_no_comma (q : List Char) (h : ',' ∉ q) :
    splitOnComma q = [q] := by
  induction q with
  | nil => rfl
  | cons c cs ih =>
      have hc : c ≠ ',' := fun hh => h (hh ▸ List.mem_cons_self c cs)
      have hcs : ',' ∉ cs := fun hh => h (List.mem_cons_of_mem c hh)
      simp only [splitOnComma]
      rw [if_neg hc, ih hcs]

theorem splitOnComma_append (p q : List Char) (hp : ',' ∉ p) (hq : ',' ∉ q) :
    splitOnComma (p ++ ',' :: q) = [p, q] := by
  induction p with
  | nil =>
      have e : splitOnComma (',' :: q) = [] :: splitOnComma q := rfl
      rw [List.nil_append, e, splitOnComma_no_comma q hq]
  | cons c cs ih =>
      have hc : c ≠ ',' := fun hh => hp (hh ▸ List.mem_cons_self c cs)
      have hcs : ',' ∉ cs := fun hh => hp (List.mem_cons_of_mem c hh)
      rw [List.cons_append]
      simp only [splitOnComma]
      rw [if_neg hc, ih hcs]

/-- C9: encoding an image file to the interchange ExportedImage format
(base64 data URL plus name, type, lastModified) and decoding it back with
`base64ToFile` is a round-trip: the decoded file's bytes are identical in
length and content to the original's, and its name, type and lastModified
equal the exported values exactly (stated for byte values below 256 and a
comma-free MIME type, which every real file satisfies). -/
theorem export_roundtrip (f : FileM)
    (hbytes : ∀ b ∈ f.bytes, b < 256) (htype : ',' ∉ f.type) :
    base64ToFile (exportImage f).data (exportImage f).name
      (exportImage f).type (exportImage f).lastModified = f := by
  have h8 : ";base64,".data = ";base64".data ++ [','] := by decide
  have hdata : "data:".data ++ f.type ++ ";base64,".data ++ encodeB64 f.bytes =
      ("data:".data ++ f.type ++ ";base64".data) ++ ',' :: encodeB64 f.bytes := by
    rw [h8]
    simp [List.append_assoc]
  have hp : ',' ∉ "data:".data ++ f.type ++ ";base64".data := by
    intro hm
    rcases List.mem_append.mp hm with hm | hm
    · rcases List.mem_append.mp hm with hm | hm
      · exact absurd hm (by decide)
      · exact htype hm
    · exact absurd hm (by decide)
  have hq := comma_not_mem_encodeB64 f.bytes
  have hsplit := splitOnComma_append _ _ hp hq
  have hok : decodeB64 (encodeB64 f.bytes) = f.bytes := decode_encodeB64 f.bytes hbytes
  simp only [base64ToFile, exportImage, hdata, hsplit]
  simp [hok]

theorem export_roundtrip_witness :
    base64ToFile (exportImage sampleFile).data (exportImage sampleFile).name
      (exportImage sampleFile).type (exportImage sampleFile).lastModified =
      sampleFile :=
  export_roundtrip sampleFile (by decide) (by decide)

theorem tripleEq_refl (a : UploadFile) : tripleEq a a = true := by
  simp [tripleEq]

theorem tripleEq_trans {a b c : UploadFile} (h1 : tripleEq a b = true)
    (h2 : tripleEq b c = true) : tripleEq a c = true := by
  simp only [tripleEq, Bool.and_eq_true, decide_eq_true_eq] at h1 h2 ⊢
  exact ⟨⟨h1.1.1.trans h2.1.1, h1.1.2.trans h2.1.2⟩, h1.2.trans h2.2⟩

theorem dedupByTriple_append_singleton (l : List UploadFile) (x : UploadFile) :
    dedupByTriple (l ++ [x]) =
      dedupByTriple l ++
        (if l.any (fun f => tripleEq f x) = true then [] else [x]) := by
  unfold dedupByTriple
  rw [List.enum_append, List.enumFrom_cons, List.enumFrom_nil,
    List.filter_append, List.map_append]
  have h1 : l.enum.filter
        (fun p => decide ((l ++ [x]).findIdx (fun f => tripleEq f p.2) = p.1)) =
      l.enum.filter
        (fun p => decide (l.findIdx (fun f => tripleEq f p.2) = p.1)) := by
    apply List.filter_congr
    intro p hp
    have hsome := List.mem_enum_iff_getElem?.mp hp
    have hlt : p.1 < l.length := by
      rcases List.getElem?_eq_some.mp hsome with ⟨h, -⟩
      exact h
    rw [List.findIdx_append]
    by_cases hf : l.findIdx (fun f => tripleEq f p.2) < l.length
    · rw [if_pos hf]
    · rw [if_neg hf]
      have hA : ¬(List.findIdx (fun f => tripleEq f p.2) [x] + l.length = p.1) := by
        omega
      have hB : ¬(List.findIdx (fun f => tripleEq f p.2) l = p.1) := by
        omega
      simp [hA, hB]
  have h2 : (List.filter
        (fun p => decide ((l ++ [x]).findIdx (fun f => tripleEq f p.2) = p.1))
        [(l.length, x)]).map (fun p => p.2) =
      (if l.any (fun f => tripleEq f x) = true then [] else [x]) := by
    by_cases ha : l.any (fun f => tripleEq f x) = true
    · rw [if_pos ha]
      have hlt : List.findIdx (fun f => tripleEq f x) l < l.length :=
        List.findIdx_lt_length.mpr (List.any_eq_true.mp ha)
      have hcond : ¬((l ++ [x]).findIdx (fun f => tripleEq f x) = l.length) := by
        rw [List.findIdx_append, if_pos hlt]
        omega
      simp [List.filter_singleton, hcond]
    · rw [if_neg ha]
      have ha0 : l.any (fun f => tripleEq f x) = false := by
        revert ha
        cases l.any (fun f => tripleEq f x) <;> simp
      have hnone : ∀ f ∈ l, tripleEq f x = false := by
        intro f hf
        have := List.any_eq_false.mp ha0
        simpa using this f hf
      have hfi : List.findIdx (fun f => tripleEq f x) l = l.length :=
        List.findIdx_eq_length.mpr hnone
      have hcond : (l ++ [x]).findIdx (fun f => tripleEq f x) = l.length := by
        rw [List.findIdx_append, if_neg (by omega)]
        have h0 : List.findIdx (fun f => tripleEq f x) [x] = 0 := by
          rw [List.findIdx_cons, tripleEq_refl]
          rfl
        omega
      simp [List.filter_singleton, hcond]
  rw [h1, h2]

theorem dedupByTriple_of_pairwise (l : List UploadFile) :
    l.Pairwise (fun a b => tripleEq a b = false) → dedupByTriple l = l := by
  induction l using List.reverseRecOn with
  | nil => intro _; rfl
  | append_singleton pre x ih =>
      intro h
      rcases List.pairwise_append.mp h with ⟨hpre, -, hcross⟩
      have hany : pre.any (fun f => tripleEq f x) = false := by
        rw [List.any_eq_false]
        intro f hf
        simpa using hcross f hf x (by simp)
      rw [dedupByTriple_append_singleton, hany, ih hpre]
      simp

theorem dedup_split (s : List UploadFile) :
    ∀ images : List UploadFile,
      images.Pairwise (fun a b => tripleEq a b = false) →
      ∃ appended,
        dedupByTriple (images ++ s) = images ++ appended ∧
        appended.Sublist s ∧
        (images ++ appended).Pairwise (fun a b => tripleEq a b = false) ∧
        (∀ f ∈ images ++ s, ∃ g ∈ images ++ appended, tripleEq g f = true) := by
  induction s using List.reverseRecOn with
  | nil =>
      intro images hnd
      refine ⟨[], ?_, List.nil_sublist _, ?_, ?_⟩
      · rw [List.append_nil]
        exact dedupByTriple_of_pairwise images hnd
      · rw [List.append_nil]
        exact hnd
      · intro f hf
        rw [List.append_nil] at hf ⊢
        exact ⟨f, hf, tripleEq_refl f⟩
  | append_singleton s x ih =>
      intro images hnd
      obtain ⟨app, heq, hsub, hpw, hcomp⟩ := ih images hnd
      by_cases ha : (images ++ s).any (fun f => tripleEq f x) = true
      · refine ⟨app, ?_, hsub.trans (List.sublist_append_left s [x]), hpw, ?_⟩
        · rw [← List.append_assoc, dedupByTriple_append_singleton, heq,
            if_pos ha, List.append_nil]
        · intro f hf
          rcases List.mem_append.mp hf with hf1 | hf1
          · exact hcomp f (List.mem_append.mpr (Or.inl hf1))
          · rcases List.mem_append.mp hf1 with hf2 | hf2
            · exact hcomp f (List.mem_append.mpr (Or.inr hf2))
            · have hfx : f = x := by simpa using hf2
              subst hfx
              rcases List.any_eq_true.mp ha with ⟨y, hy, hyx⟩
              rcases hcomp y hy with ⟨g, hg, hgy⟩
              exact ⟨g, hg, tripleEq_trans hgy hyx⟩
      · have ha0 : (images ++ s).any (fun f => tripleEq f x) = false := by
          revert ha
          cases (images ++ s).any (fun f => tripleEq f x) <;> simp
        have hall : ∀ f ∈ images ++ s, tripleEq f x = false := by
          intro f hf
          simpa using List.any_eq_false.mp ha0 f hf
        refine ⟨app ++ [x], ?_, hsub.append_right [x], ?_, ?_⟩
        · rw [← List.append_assoc, dedupByTriple_append_singleton, heq,
            if_neg ha, List.append_assoc]
        · rw [← List.append_assoc]
          refine List.pairwise_append.mpr ⟨hpw, by simp, ?_⟩
          intro a hain b hbx
          have hbx2 : b = x := by simpa using hbx
          subst hbx2
          rcases List.mem_append.mp hain with haim | happ
          · exact hall a (List.mem_append.mpr (Or.inl haim))
          · exact hall a (List.mem_append.mpr (Or.inr (hsub.subset happ)))
        · intro f hf
          rcases List.mem_append.mp hf with hf1 | hf1
          · rcases hcomp f (List.mem_append.mpr (Or.inl hf1)) with ⟨g, hg, hgf⟩
            rcases List.mem_append.mp hg with hg1 | hg1
            · exact ⟨g, List.mem_append.mpr (Or.inl hg1), hgf⟩
            · exact ⟨g, List.mem_append.mpr
                (Or.inr (List.mem_append.mpr (Or.inl hg1))), hgf⟩
          · rcases List.mem_append.mp hf1 with hf2 | hf2
            · rcases hcomp f (List.mem_append.mpr (Or.inr hf2)) with ⟨g, hg, hgf⟩
              rcases List.mem_append.mp hg with hg1 | hg1
              · exact ⟨g, List.mem_append.mpr (Or.inl hg1), hgf⟩
              · exact ⟨g, List.mem_append.mpr
                  (Or.inr (List.mem_append.mpr (Or.inl hg1))), hgf⟩
            · have hfx : f = x := by simpa using hf2
              subst hfx
              exact ⟨f, List.mem_append.mpr
                (Or.inr (List.mem_append.mpr (Or.inr (by simp)))), tripleEq_refl f⟩

/-- C10: adding files preserves the existing images as an unchanged prefix
(given the invariant that they already carry pairwise-distinct
(name, size, lastModified) triples) and appends only the genuinely new
image files: non-image files are dropped; the appended batch is, in order,
a sub-sequence of the new image files sorted ascending by `lastModified`,
hence itself sorted; every appended file is an image from the new batch
whose triple does not occur among the existing images; the result never
contains two files with the same triple; and every new image file is
represented in the result by a file with its triple (a re-added duplicate
is discarded in favour of the first occurrence). -/
theorem handleAddFiles_spec (images newFiles : List UploadFile)
    (hnd : images.Pairwise (fun a b => tripleEq a b = false)) :
    ∃ appended,
      handleAddFiles images newFiles = images ++ appended ∧
      appended.Sublist
        (sortLe (fun a b => decide (a.lastModified ≤ b.lastModified))
          (newFiles.filter UploadFile.isImage)) ∧
      appended.Pairwise (fun a b => a.lastModified ≤ b.lastModified) ∧
      (∀ f ∈ appended, f.isImage = true ∧ f ∈ newFiles ∧
        ∀ g ∈ images, tripleEq g f = false) ∧
      (images ++ appended).Pairwise (fun a b => tripleEq a b = false) ∧
      (∀ f ∈ newFiles, f.isImage = true →
        ∃ g ∈ images ++ appended, tripleEq g f = true) := by
  by_cases h0 : (newFiles.filter UploadFile.isImage).length = 0
  · have hemp : newFiles.filter UploadFile.isImage = [] :=
      List.length_eq_zero.mp h0
    refine ⟨[], ?_, List.nil_sublist _, by simp, by simp, ?_, ?_⟩
    · rw [List.append_nil]
      simp only [handleAddFiles]
      rw [if_pos h0]
    · rw [List.append_nil]
      exact hnd
    · intro f hf him
      have : f ∈ newFiles.filter UploadFile.isImage :=
        List.mem_filter.mpr ⟨hf, him⟩
      rw [hemp] at this
      simp at this
  · obtain ⟨app, heq, hsub, hpw, hcomp⟩ :=
      dedup_split
        (sortLe (fun a b => decide (a.lastModified ≤ b.lastModified))
          (newFiles.filter UploadFile.isImage)) images hnd
    have hsorted : (sortLe (fun a b => decide (a.lastModified ≤ b.lastModified))
        (newFiles.filter UploadFile.isImage)).Pairwise
        (fun a b => a.lastModified ≤ b.lastModified) := by
      have := sortLe_pairwise
        (fun a b : UploadFile => decide (a.lastModified ≤ b.lastModified))
        (by intro a b hab; simp at hab ⊢; omega)
        (by intro a b c hab hbc; simp at hab hbc ⊢; omega)
        (newFiles.filter UploadFile.isImage)
      exact this.imp (by intro a b hab; simpa using hab)
    have hperm := sortLe_perm
      (fun a b : UploadFile => decide (a.lastModified ≤ b.lastModified))
      (newFiles.filter UploadFile.isImage)
    refine ⟨app, ?_, hsub, List.Pairwise.sublist hsub hsorted, ?_, hpw, ?_⟩
    · simp only [handleAddFiles]
      rw [if_neg h0]
      exact heq
    · intro f hf
      have hfs : f ∈ newFiles.filter UploadFile.isImage :=
        hperm.subset (hsub.subset hf)
      rcases List.mem_filter.mp hfs with ⟨hfn, hfi⟩
      refine ⟨hfi, hfn, ?_⟩
      intro g hg
      rcases List.pairwise_append.mp hpw with ⟨-, -, hcross⟩
      exact hcross g hg f hf
    · intro f hf him
      have hfs : f ∈ newFiles.filter UploadFile.isImage :=
        List.mem_filter.mpr ⟨hf, him⟩
      have hfin : f ∈ sortLe (fun a b => decide (a.lastModified ≤ b.lastModified))
          (newFiles.filter UploadFile.isImage) :=
        (hperm.mem_iff).mpr hfs
      exact hcomp f (List.mem_append.mpr (Or.inr hfin))

theorem handleAddFiles_spec_witness :
    ∃ appended,
      handleAddFiles [fileA] [fileB, fileC, fileA] = [fileA] ++ appended ∧
      appended.Sublist
        (sortLe (fun a b => decide (a.lastModified ≤ b.lastModified))
          (List.filter UploadFile.isImage [fileB, fileC, fileA])) ∧
      appended.Pairwise (fun a b => a.lastModified ≤ b.lastModified) ∧
      (∀ f ∈ appended, f.isImage = true ∧ f ∈ [fileB, fileC, fileA] ∧
        ∀ g ∈ [fileA], tripleEq g f = false) ∧
      ([fileA] ++ appended).Pairwise (fun a b => tripleEq a b = false) ∧
      (∀ f ∈ [fileB, fileC, fileA], f.isImage = true →
        ∃ g ∈ [fileA] ++ appended, tripleEq g f = true) :=
  handleAddFiles_spec [fileA] [fileB, fileC, fileA] (by simp)

end SG

